import Mathlib

/-
  Verification development for the money-muling forensics engine
  (src/app.py, class ForensicsEngine).

  The engine is embedded shallowly:
  - transaction amounts are modelled as rationals (the source uses Python
    floats; every constant appearing in the detectors, 0.005, 0.6, 0.7,
    0.25, is modelled by the exact rational it denotes),
  - timestamps are modelled as integers counting seconds (the source uses
    pandas timestamps and timedeltas; only differences and comparisons are
    ever taken, and timedelta(hours=72) becomes 259200 seconds),
  - Python sets of account ids (the per-node senders and receivers sets)
    are modelled as insertion-ordered duplicate-free lists; CPython iterates
    sets in an unspecified hash-dependent order, the embedding fixes the
    first-insertion order,
  - the Python dicts (suspicious map, claimed-accounts map) preserve
    insertion order, and are modelled as insertion-ordered lists,
  - round(x, 1) is modelled as floor(10 x + 1/2) / 10; every rounding this
    development evaluates happens at rationals with an exact one-decimal
    representation, where the two definitions agree,
  - detect_cycles first tries networkx.simple_cycles and falls back to the
    class's own _dfs_cycles on failure; both enumerate the simple cycles of
    length 3 to 5, differing only in enumeration order, and the embedding
    uses the repository's own _dfs_cycles,
  - the two stack-driven searches (_dfs_cycles, _find_shell_chains) are
    given explicit fuel. For _dfs_cycles every pushed frame marks a fresh
    node in the per-start visited set, so nodes+1 iterations always
    suffice. For _find_shell_chains every frame carries a repetition-free
    path of at most 7 nodes, so (nodes+2)^8 iterations always suffice.
-/

namespace Forensics

/-- One validated transaction record, the core input contract:
sender id, receiver id, non-negative amount, timestamp. -/
structure Record where
  sender : String
  receiver : String
  amount : ℚ
  ts : ℤ
deriving DecidableEq, Repr

/-- Per-node statistics kept by _build_graph. -/
structure NodeData where
  totalSent : ℚ
  totalReceived : ℚ
  txCount : ℕ
  sendCount : ℕ
  recvCount : ℕ
  senders : List String
  receivers : List String
  timestamps : List ℤ
deriving DecidableEq, Repr

def emptyNode : NodeData := ⟨0, 0, 0, 0, 0, [], [], []⟩

/-- Per-edge aggregate kept by _build_graph. -/
structure EdgeData where
  weight : ℚ
  count : ℕ
  timestamps : List ℤ
deriving DecidableEq, Repr

def emptyEdge : EdgeData := ⟨0, 0, []⟩

/-- The directed multigraph-with-aggregation of _build_graph: node list in
insertion order, node data, edge list in insertion order, edge data.
Absent nodes and edges carry the zeroed default. -/
structure Graph where
  nodes : List String
  ndata : String → NodeData
  edges : List (String × String)
  edata : String → String → EdgeData

/-- Python set.add on the insertion-ordered list model of a set. -/
def addDistinct (l : List String) (x : String) : List String :=
  if x ∈ l then l else l ++ [x]

/-- Point update of the node-data map. -/
def updNode (g : Graph) (key : String) (f : NodeData → NodeData) : Graph :=
  { g with ndata := fun x => if x = key then f (g.ndata x) else g.ndata x }

/-- Point update of the edge-data map. -/
def updEdge (g : Graph) (s t : String) (f : EdgeData → EdgeData) : Graph :=
  { g with edata := fun u v => if u = s ∧ v = t then f (g.edata u v) else g.edata u v }

/-- The add_node call of _build_graph: create the node with zeroed
statistics unless present. -/
def addNode (g : Graph) (x : String) : Graph :=
  if x ∈ g.nodes then g else { g with nodes := g.nodes ++ [x] }

/-- The node phase of one row of _build_graph: ensure both endpoints
exist, then update the sender-side and receiver-side statistics. -/
def ingestStats (g : Graph) (r : Record) : Graph :=
  let g := addNode g r.sender
  let g := addNode g r.receiver
  let g := updNode g r.sender (fun d =>
    { d with totalSent := d.totalSent + r.amount, txCount := d.txCount + 1,
             sendCount := d.sendCount + 1,
             receivers := addDistinct d.receivers r.receiver,
             timestamps := d.timestamps ++ [r.ts] })
  updNode g r.receiver (fun d =>
    { d with totalReceived := d.totalReceived + r.amount, txCount := d.txCount + 1,
             recvCount := d.recvCount + 1,
             senders := addDistinct d.senders r.sender,
             timestamps := d.timestamps ++ [r.ts] })

/-- One iteration of the row loop of _build_graph: the node phase followed
by the directed-edge accumulation. -/
def ingest (g : Graph) (r : Record) : Graph :=
  let g := ingestStats g r
  if (r.sender, r.receiver) ∈ g.edges then
    updEdge g r.sender r.receiver (fun e =>
      { weight := e.weight + r.amount, count := e.count + 1,
        timestamps := e.timestamps ++ [r.ts] })
  else
    updEdge { g with edges := g.edges ++ [(r.sender, r.receiver)] }
      r.sender r.receiver (fun _ => ⟨r.amount, 1, [r.ts]⟩)

/-- ForensicsEngine._build_graph over the whole record sequence. -/
def buildGraph (records : List Record) : Graph :=
  records.foldl ingest ⟨[], fun _ => emptyNode, [], fun _ _ => emptyEdge⟩

/-- Out-neighbours of a node, in edge insertion order (networkx adjacency
order). -/
def successors (g : Graph) (n : String) : List String :=
  (g.edges.filter (fun e => e.1 == n)).map (fun e => e.2)

def outEdges (g : Graph) (n : String) : List (String × String) :=
  g.edges.filter (fun e => e.1 == n)

def inEdges (g : Graph) (n : String) : List (String × String) :=
  g.edges.filter (fun e => e.2 == n)

/-- ForensicsEngine._is_merchant_or_payroll. The payroll branch compares
the coefficient of variation sqrt(variance)/mean with 0.25; since mean > 0
is already established there, the comparison is carried out squared,
variance < (mean/4)^2, which is the same test stated without a square
root. -/
def isMerchantOrPayroll (g : Graph) (node : String) : Bool :=
  let d := g.ndata node
  let sc := d.senders.length
  let rc := d.receivers.length
  if 20 ≤ sc ∧ rc ≤ 3 then true
  else if 20 ≤ rc ∧ sc ≤ 3 then
    let amounts := (outEdges g node).map (fun e =>
        (g.edata e.1 e.2).weight / (max ((g.edata e.1 e.2).count : ℚ) 1))
    if 10 ≤ amounts.length then
      let mean := amounts.sum / (amounts.length : ℚ)
      if 0 < mean then
        let variance := (amounts.map (fun a => (a - mean) ^ 2)).sum / (amounts.length : ℚ)
        decide (variance < (mean / 4) ^ 2)
      else false
    else false
  else false

/-- A ring as registered by the detectors. Ring ids are modelled by the
counter value; the source renders the counter as RING_%03d, an injective
formatting that the claims never inspect textually. -/
structure Ring where
  ring_id : ℕ
  member_accounts : List String
  pattern_type : String
  risk_score : ℚ
deriving DecidableEq, Repr

/-- A suspicious-account entry of the shared per-run map. -/
structure SuspEntry where
  account_id : String
  suspicion_score : ℚ
  detected_patterns : List String
  ring_id : ℕ
deriving DecidableEq, Repr

/-- The mutable per-run state shared by the detectors. -/
structure EngineState where
  rings : List Ring
  suspicious : List SuspEntry
  ringCounter : ℕ
deriving Repr

/-- ForensicsEngine._flag_account. The source's final branch that would
reassign an entry with a falsy ring id never fires, because ring ids are
the nonempty strings RING_%03d; it is therefore not modelled. -/
def flagAccount (st : EngineState) (acc pattern : String) (ringId : ℕ)
    (base : ℚ) : EngineState :=
  let sus :=
    if st.suspicious.any (fun e => e.account_id == acc) then st.suspicious
    else st.suspicious ++ [⟨acc, 0, [], ringId⟩]
  let sus := sus.map (fun e =>
    if e.account_id = acc then
      { e with
        detected_patterns :=
          if pattern ∈ e.detected_patterns then e.detected_patterns
          else e.detected_patterns ++ [pattern],
        suspicion_score := min 100 (e.suspicion_score + base) }
    else e)
  { st with suspicious := sus }

/-- Python round(x, 1): rounding to one decimal, modelled half-up. -/
def round1 (x : ℚ) : ℚ := ((x * 10 + 1 / 2).floor : ℚ) / 10

/-- Ascending insertion of an integer into a sorted list. -/
def insertInt (x : ℤ) : List ℤ → List ℤ
  | [] => [x]
  | y :: ys => if x ≤ y then x :: y :: ys else y :: insertInt x ys

/-- Python sorted on a list of timestamps. -/
def sortInts (l : List ℤ) : List ℤ := l.foldr insertInt []

/-- timedelta(hours=72) in seconds. -/
def windowSecs : ℤ := 259200

/-- The maximum, over every suffix of the sorted timestamp list, of the
number of elements of that suffix within windowSecs of its head; the inner
loop of _temporal_concentration. -/
def maxWindow : List ℤ → ℕ
  | [] => 0
  | t :: rest =>
    max (((t :: rest).filter (fun u => decide (u - t ≤ windowSecs))).length)
      (maxWindow rest)

/-- ForensicsEngine._temporal_concentration on the flattened timestamp
collection. -/
def tempConcTs (l : List ℤ) : ℚ :=
  if l.length < 3 then 0
  else min 1 ((maxWindow (sortInts l) : ℚ) / (l.length : ℚ))

/-- Flatten the timestamp lists of a list of edges, in edge order. -/
def edgesTimestamps (g : Graph) (es : List (String × String)) : List ℤ :=
  es.foldl (fun acc e => acc ++ (g.edata e.1 e.2).timestamps) []

/-- ForensicsEngine._temporal_concentration as called on edge lists. -/
def temporalConcentration (g : Graph) (es : List (String × String)) : ℚ :=
  tempConcTs (edgesTimestamps g es)

/-- ForensicsEngine._canonicalize_cycle: rotate so the smallest member
comes first. -/
def canonicalizeCycle (cyc : List String) : List String :=
  let m := cyc.foldl (fun a b => if b < a then b else a) (cyc.headD "")
  let i := cyc.findIdx (fun x => x == m)
  cyc.drop i ++ cyc.take i

/-- Stack frame of _dfs_cycles. -/
structure CFrame where
  curr : String
  path : List String
  depth : ℕ

/-- The body of the successor loop of _dfs_cycles: either record a closure
back to the start, or push an unvisited neighbour. Frames are pushed onto
the front so that the most recently pushed frame is popped first, matching
the Python list stack. -/
def dfsStep (start : String) (fr : CFrame)
    (acc : List CFrame × List String × List (List String)) (nbr : String) :
    List CFrame × List String × List (List String) :=
  let (stk, vis, cycs) := acc
  if nbr = start ∧ 3 ≤ fr.path.length then
    (stk, vis, cycs ++ [canonicalizeCycle fr.path])
  else if nbr ∉ vis ∧ fr.depth < 4 then
    (⟨nbr, fr.path ++ [nbr], fr.depth + 1⟩ :: stk, nbr :: vis, cycs)
  else (stk, vis, cycs)

/-- The while loop of _dfs_cycles for one start node. Each push marks a
fresh node in vis, so the loop runs at most nodes+1 times; the fuel passed
by dfsCycles covers that. -/
def dfsCyclesGo (g : Graph) (start : String) :
    ℕ → List CFrame → List String → List (List String) → List (List String)
  | 0, _, _, cycs => cycs
  | _ + 1, [], _, cycs => cycs
  | fuel + 1, fr :: rest, vis, cycs =>
    if 5 ≤ fr.depth then dfsCyclesGo g start fuel rest vis cycs
    else
      let s := (successors g fr.curr).foldl (dfsStep start fr) (rest, vis, cycs)
      dfsCyclesGo g start fuel s.1 s.2.1 s.2.2

/-- ForensicsEngine._dfs_cycles: bounded cycle search from every node. -/
def dfsCycles (g : Graph) : List (List String) :=
  g.nodes.foldl (fun cycs start =>
      dfsCyclesGo g start (g.nodes.length + 1) [⟨start, [start], 0⟩] [start] cycs)
    []

/-- Equality of the node sets underlying two lists: the frozenset
comparison used for deduplication. -/
def setEqv (a b : List String) : Bool :=
  a.all (fun x => b.contains x) && b.all (fun x => a.contains x)

/-- The consecutive hops of a cycle, wrapping around. -/
def cyclePairs (l : List String) : List (String × String) :=
  l.zip (l.drop 1 ++ l.take 1)

/-- Total flow along a cycle: sum of the weights of the existing hop
edges. -/
def cycleFlow (g : Graph) (cyc : List String) : ℚ :=
  (cyclePairs cyc).foldl (fun fl p =>
    if (p.1, p.2) ∈ g.edges then fl + (g.edata p.1 p.2).weight else fl) 0

/-- The registration loop body of detect_cycles: skip a cycle whose node
set was already seen, otherwise register a ring and flag the non-hub
members. -/
def registerCycle (g : Graph) (acc : List (List String) × EngineState)
    (cyc : List String) : List (List String) × EngineState :=
  let (seen, st) := acc
  if seen.any (fun s => setEqv s cyc) then acc
  else
    let seen := seen ++ [cyc]
    let rid := st.ringCounter + 1
    let cycleLen := cyc.length
    let risk := min 100 (60 + cycleFlow g cyc / (max (cycleLen : ℚ) 1) * (1 / 200)
      + (cycleLen : ℚ) * 5)
    let st : EngineState :=
      { st with ringCounter := rid,
                rings := st.rings ++ [⟨rid, cyc, "cycle", round1 risk⟩] }
    let st := cyc.foldl (fun st a =>
        if isMerchantOrPayroll g a then st
        else flagAccount st a ("cycle_length_" ++ toString cycleLen) rid
          (40 + (cycleLen : ℚ) * 5)) st
    (seen, st)

/-- ForensicsEngine.detect_cycles, enumerating with the class's own
_dfs_cycles and deduplicating registered rings by node set. -/
def detectCycles (g : Graph) (st : EngineState) : EngineState :=
  ((dfsCycles g).foldl (registerCycle g) ([], st)).2

/-- The pattern list applied to each member of a smurfing ring. -/
def smurfPatterns (t : ℚ) (firstPat : String) : List String :=
  if 1 / 2 < t then [firstPat, "high_velocity"] else [firstPat]

/-- The fan-in block of detect_smurfing for one node. The ring counter
advances as soon as the degree threshold fires, even when fewer than three
members survive the hub filter and no ring is registered. -/
def fanInStep (g : Graph) (st : EngineState) (node : String) : EngineState :=
  let d := g.ndata node
  let sc := d.senders.length
  if 10 ≤ sc then
    let t := temporalConcentration g (inEdges g node)
    let base := 35 + ((min sc 50 : ℕ) : ℚ) * (3 / 5) + t * 15
    let rid := st.ringCounter + 1
    let st := { st with ringCounter := rid }
    let members := (node :: d.senders).filter (fun m => !(isMerchantOrPayroll g m))
    if 3 ≤ members.length then
      let st := { st with
        rings := st.rings ++ [⟨rid, members, "smurfing", round1 (min 100 base)⟩] }
      members.foldl (fun st a =>
        let pats := smurfPatterns t "fan_in"
        pats.foldl (fun st p =>
          flagAccount st a p rid (base * (7 / 10) / (pats.length : ℚ))) st) st
    else st
  else st

/-- The fan-out block of detect_smurfing for one node. -/
def fanOutStep (g : Graph) (st : EngineState) (node : String) : EngineState :=
  let d := g.ndata node
  let rc := d.receivers.length
  if 10 ≤ rc then
    let t := temporalConcentration g (outEdges g node)
    let base := 35 + ((min rc 50 : ℕ) : ℚ) * (3 / 5) + t * 15
    let rid := st.ringCounter + 1
    let st := { st with ringCounter := rid }
    let members := (node :: d.receivers).filter (fun m => !(isMerchantOrPayroll g m))
    if 3 ≤ members.length then
      let st := { st with
        rings := st.rings ++ [⟨rid, members, "smurfing", round1 (min 100 base)⟩] }
      members.foldl (fun st a =>
        let pats := smurfPatterns t "fan_out"
        pats.foldl (fun st p =>
          flagAccount st a p rid (base * (7 / 10) / (pats.length : ℚ))) st) st
    else st
  else st

/-- ForensicsEngine.detect_smurfing: per non-hub node, the fan-in block
then the fan-out block. -/
def detectSmurfing (g : Graph) (st : EngineState) : EngineState :=
  g.nodes.foldl (fun st node =>
    if isMerchantOrPayroll g node then st
    else fanOutStep g (fanInStep g st node) node) st

/-- The shell candidates: nodes with total transaction count 2 or 3, in
node order. -/
def shellCandidates (g : Graph) : List String :=
  g.nodes.filter (fun n =>
    decide (2 ≤ (g.ndata n).txCount ∧ (g.ndata n).txCount ≤ 3))

/-- Stack frame of _find_shell_chains. The shell counter is carried along
exactly as in the source, which threads it but never reads it. -/
structure SFrame where
  curr : String
  path : List String
  shellCount : ℕ

/-- Register one layering chain: ring plus flags for non-hub members. -/
def registerChain (g : Graph) (shellCands : List String) (st : EngineState)
    (newPath : List String) : EngineState :=
  let rid := st.ringCounter + 1
  let intermediates := (newPath.drop 1).dropLast
  let shellMembers := intermediates.filter (fun n => shellCands.contains n)
  let risk := min 100 (50 + (shellMembers.length : ℚ) * 10 + (newPath.length : ℚ) * 3)
  let st := { st with ringCounter := rid,
                      rings := st.rings ++ [⟨rid, newPath, "layering", round1 risk⟩] }
  newPath.foldl (fun st a =>
    if isMerchantOrPayroll g a then st
    else
      let pat := if shellCands.contains a then "shell_intermediate" else "shell_endpoint"
      flagAccount st a pat rid (30 + (shellMembers.length : ℚ) * 5)) st

/-- The chain test of _find_shell_chains: extended path of length at least
4 whose interior has at least 2 nodes, at least sixty percent of them
shell candidates. The source compares against len * 0.6 in floating
point; the embedding uses the exact threshold 3/5. -/
def chainCond (shellCands : List String) (newPath : List String) : Bool :=
  let intermediates := (newPath.drop 1).dropLast
  decide (4 ≤ newPath.length) && decide (2 ≤ intermediates.length) &&
    decide ((intermediates.length : ℚ) * (3 / 5) ≤
      ((intermediates.filter (fun n => shellCands.contains n)).length : ℚ))

/-- The successor-loop body of _find_shell_chains. -/
def shellSucc (g : Graph) (shellCands : List String) (fr : SFrame)
    (acc : List SFrame × List (List String) × EngineState) (nxt : String) :
    List SFrame × List (List String) × EngineState :=
  let (stk, visited, st) := acc
  if fr.path.contains nxt then acc
  else
    let newPath := fr.path ++ [nxt]
    let newShell := fr.shellCount + (if shellCands.contains nxt then 1 else 0)
    let (visited, st) :=
      if chainCond shellCands newPath ∧ ¬ (visited.any (fun s => setEqv s newPath)) then
        (visited ++ [newPath], registerChain g shellCands st newPath)
      else (visited, st)
    let stk := if newPath.length < 7 then (⟨nxt, newPath, newShell⟩ :: stk) else stk
    (stk, visited, st)

/-- The while loop of _find_shell_chains. Every frame carries a
repetition-free path of at most 7 nodes, so the fuel passed by
detectShellNetworks covers every reachable frame. -/
def shellGo (g : Graph) (shellCands : List String) :
    ℕ → List SFrame → List (List String) → EngineState →
      List (List String) × EngineState
  | 0, _, visited, st => (visited, st)
  | _ + 1, [], visited, st => (visited, st)
  | fuel + 1, fr :: rest, visited, st =>
    if 6 < fr.path.length then shellGo g shellCands fuel rest visited st
    else
      let s := (successors g fr.curr).foldl (shellSucc g shellCands fr)
        (rest, visited, st)
      shellGo g shellCands fuel s.1 s.2.1 s.2.2

/-- ForensicsEngine.detect_shell_networks: bounded chain search from every
non-shell start, sharing the visited-chain list across starts. -/
def detectShellNetworks (g : Graph) (st : EngineState) : EngineState :=
  let cands := shellCandidates g
  if cands.isEmpty then st
  else
    (g.nodes.foldl (fun (acc : List (List String) × EngineState) start =>
        if cands.contains start then acc
        else shellGo g cands ((g.nodes.length + 2) ^ 8) [⟨start, [start], 0⟩]
          acc.1 acc.2)
      ([], st)).2

/-- ForensicsEngine.detect_high_velocity: amplify accounts already flagged
whose sustained rate exceeds 5 transactions per hour. The appended pattern
is not checked for duplication in the source. -/
def detectHighVelocity (g : Graph) (st : EngineState) : EngineState :=
  g.nodes.foldl (fun st node =>
    if isMerchantOrPayroll g node then st
    else
      let ts := sortInts (g.ndata node).timestamps
      if ts.length < 5 then st
      else
        let span0 : ℤ := ts.getLastD 0 - ts.headD 0
        let span : ℚ := if span0 ≤ 0 then 1 else (span0 : ℚ)
        let rate := (ts.length : ℚ) / (span / 3600)
        if 5 < rate then
          if st.suspicious.any (fun e => e.account_id == node) then
            { st with suspicious := st.suspicious.map (fun e =>
                if e.account_id = node then
                  { e with detected_patterns := e.detected_patterns ++ ["high_velocity"],
                           suspicion_score := min 100 (e.suspicion_score + 15) }
                else e) }
          else st
        else st) st

/-- Lookup in the claimed-accounts map. -/
def lookupClaim (cl : List (String × ℕ)) (a : String) : Option ℕ :=
  (cl.find? (fun p => p.1 == a)).map (fun p => p.2)

/-- The member loop of the reconciliation pass: keep members not yet
claimed and claim them for this ring. -/
def claimMembers (rid : ℕ) : List String → List (String × ℕ) →
    List String × List (String × ℕ)
  | [], cl => ([], cl)
  | a :: rest, cl =>
    if (lookupClaim cl a).isSome then claimMembers rid rest cl
    else
      let p := claimMembers rid rest (cl ++ [(a, rid)])
      (a :: p.1, p.2)

/-- The ring loop of the reconciliation pass of ForensicsEngine.run. A
dropped ring's claims stay in the map, exactly as in the source. -/
def reconcileRings : List Ring → List (String × ℕ) →
    List Ring × List (String × ℕ)
  | [], cl => ([], cl)
  | r :: rs, cl =>
    let p := claimMembers r.ring_id r.member_accounts cl
    let q := reconcileRings rs p.2
    if 2 ≤ p.1.length then ({ r with member_accounts := p.1 } :: q.1, q.2)
    else q

/-- Stable descending insertion by suspicion score: a later entry goes
after every already-placed entry of greater or equal score. -/
def insertDesc (e : SuspEntry) : List SuspEntry → List SuspEntry
  | [] => [e]
  | x :: xs =>
    if e.suspicion_score ≤ x.suspicion_score then x :: insertDesc e xs
    else e :: x :: xs

/-- Python sorted(..., key=score, reverse=True), which is stable. -/
def sortDesc (l : List SuspEntry) : List SuspEntry :=
  l.foldl (fun acc e => insertDesc e acc) []

/-- The entry rewrite of ForensicsEngine.run: an entry whose account was
claimed is retargeted to the claiming ring. -/
def reassignRing (cl : List (String × ℕ)) (e : SuspEntry) : SuspEntry :=
  match lookupClaim cl e.account_id with
  | some rid => { e with ring_id := rid }
  | none => e

/-- The part of the result structure the claims are about: the suspicious
account list, the fraud ring list and the summary counts. -/
structure Output where
  suspicious_accounts : List SuspEntry
  fraud_rings : List Ring
  totalAccounts : ℕ
  flaggedCount : ℕ
  ringsDetected : ℕ
deriving Repr

/-- ForensicsEngine.run: the four detectors in order, the reconciliation
pass, entry rewriting and filtering, the stable sort and the final
rounding. -/
def runEngine (records : List Record) : Output :=
  let g := buildGraph records
  let st1 := detectCycles g ⟨[], [], 0⟩
  let st2 := detectSmurfing g st1
  let st3 := detectShellNetworks g st2
  let st4 := detectHighVelocity g st3
  let p := reconcileRings st4.rings []
  let finalRings := p.1
  let claimed := p.2
  let sus := st4.suspicious.map (reassignRing claimed)
  let sus := sus.filter (fun e => (lookupClaim claimed e.account_id).isSome)
  let sus := (sortDesc sus).map (fun e =>
      { e with suspicion_score := round1 e.suspicion_score })
  let rings := finalRings.map (fun r => { r with risk_score := round1 r.risk_score })
  ⟨sus, rings, g.nodes.length, sus.length, rings.length⟩

/-- Strict ascending sortedness of a list of account ids, written as an
executable check; account ids within one emitted member list are distinct,
so ascending order is strict. -/
def sortedAsc : List String → Bool
  | [] => true
  | [_] => true
  | a :: b :: rest => decide (a < b) && sortedAsc (b :: rest)

/-
  Concrete inputs used by the scenario claims and the counterexamples.
-/

/-- The three-transaction cycle scenario of the spec: A to B to C back to
A, each hop 1000, distinct timestamps. -/
def cycle3Input : List Record :=
  [⟨"A", "B", 1000, 0⟩, ⟨"B", "C", 1000, 3600⟩, ⟨"C", "A", 1000, 7200⟩]

/-- Two 3-cycles sharing the hops A to B: A,B,C and A,B,D. The second
cycle registered loses both shared members during reconciliation, is
dropped, and its remaining member stays claimed by a ring that no longer
exists. -/
def twoTriInput : List Record :=
  [⟨"A", "B", 1000, 0⟩, ⟨"B", "C", 1000, 3600⟩, ⟨"C", "A", 1000, 7200⟩,
   ⟨"B", "D", 1000, 10800⟩, ⟨"D", "A", 1000, 14400⟩]

/-- A 3-cycle A,B,C nested inside a 5-cycle A,B,C,D,E. The 5-cycle ring
survives reconciliation with only its two unshared members. -/
def fiveCycleInput : List Record :=
  [⟨"A", "B", 1000, 0⟩, ⟨"B", "C", 1000, 3600⟩, ⟨"C", "A", 1000, 7200⟩,
   ⟨"C", "D", 1000, 10800⟩, ⟨"D", "E", 1000, 14400⟩, ⟨"E", "A", 1000, 18000⟩]

/-- Ten senders, named in descending id order, each paying H once inside a
single hour: a fan-in burst. H receives ten transactions in 54 minutes, so
the velocity detector fires on the already-flagged H. -/
def burstInput : List Record :=
  [⟨"S10", "H", 100, 0⟩, ⟨"S09", "H", 100, 360⟩, ⟨"S08", "H", 100, 720⟩,
   ⟨"S07", "H", 100, 1080⟩, ⟨"S06", "H", 100, 1440⟩, ⟨"S05", "H", 100, 1800⟩,
   ⟨"S04", "H", 100, 2160⟩, ⟨"S03", "H", 100, 2520⟩, ⟨"S02", "H", 100, 2880⟩,
   ⟨"S01", "H", 100, 3240⟩]

/-- A 3-cycle A, H, B in which H additionally receives from 24 extra
accounts: H has 25 distinct senders and 1 distinct receiver, the merchant
pattern of the hub classifier. -/
def hubCycleInput : List Record :=
  [⟨"A", "H", 100, 0⟩, ⟨"H", "B", 100, 3600⟩, ⟨"B", "A", 100, 7200⟩] ++
    (List.range 24).map (fun i =>
      ⟨"X" ++ toString (i + 1), "H", 100, 10800 + 3600 * (i : ℤ)⟩)

set_option maxRecDepth 100000

/-- C4: on the input consisting exactly of the three transactions A to B,
B to C, C to A, each of amount 1000 with distinct timestamps, the run
produces exactly one ring, of pattern cycle with risk score 80.0, and each
of A, B, C appears in the suspicious accounts flagged with the single
pattern cycle_length_3 and final suspicion score 55.0. -/
theorem cycle3_scenario :
    ((runEngine cycle3Input).fraud_rings.map
        (fun r => (r.pattern_type, r.risk_score)) = [("cycle", 80)]) ∧
    ((runEngine cycle3Input).suspicious_accounts.map
        (fun e => (e.account_id, e.detected_patterns, e.suspicion_score)) =
      [("A", ["cycle_length_3"], 55), ("B", ["cycle_length_3"], 55),
       ("C", ["cycle_length_3"], 55)]) := by
  with_unfolding_all decide

/-- C1: counter-evidence. On twoTriInput the ring over A,B,D is registered
first, claims its members, and survives; the ring over A,B,C is reduced to
the single member C and dropped, but C stays claimed by the dropped ring
exactly as in the source, so C survives in the output with a ring id that
no surviving ring carries. The claimed property, that every output
suspicious entry carries the ring id of some output ring, is false. -/
theorem reconcile_keeps_dangling_entry :
    ¬ (∀ e ∈ (runEngine twoTriInput).suspicious_accounts,
        ∃ r ∈ (runEngine twoTriInput).fraud_rings, r.ring_id = e.ring_id) := by
  with_unfolding_all decide

/-- C7: counterexample. On fiveCycleInput the final output contains a ring
of pattern cycle with only the two members D and E: the nested 3-cycle is
registered first and claims A, B and C, and the 5-cycle ring survives
reconciliation with its remaining two members, so a final cycle ring can
have fewer than 3 members. -/
theorem cycle_ring_shrinks_below_three :
    ¬ (∀ r ∈ (runEngine fiveCycleInput).fraud_rings, r.pattern_type = "cycle" →
        3 ≤ r.member_accounts.length ∧ r.member_accounts.length ≤ 5) := by
  with_unfolding_all decide

/-- C3: counter-evidence. On burstInput the fan-in detector flags H with
fan_in and high_velocity, and detect_high_velocity then appends a second
high_velocity without the duplicate check that _flag_account performs, so
the output entry for H carries the same label twice. -/
theorem velocity_duplicates_pattern :
    ((runEngine burstInput).suspicious_accounts.filter
        (fun e => e.account_id == "H")).map (fun e => e.detected_patterns)
      = [["fan_in", "high_velocity", "high_velocity"]] := by
  with_unfolding_all decide

/-- C8: counter-evidence. On burstInput the single smurfing ring emits the
node followed by the distinct senders in first-appearance order, S10 down
to S01, with no sort, so the sender part of the member list is not in
ascending id order. -/
theorem smurf_members_not_sorted :
    ¬ (∀ r ∈ (runEngine burstInput).fraud_rings, r.pattern_type = "smurfing" →
        sortedAsc r.member_accounts.tail = true) := by
  with_unfolding_all decide

/-- C2: counterexample. On hubCycleInput the account H has 25 distinct
senders and 1 distinct receiver, hence is classified as a merchant hub,
yet H appears in the member list of the surviving cycle ring: detect_cycles
registers the full canonical cycle as member_accounts and only the flagging
loop is hub-filtered. -/
theorem hub_in_cycle_ring_members :
    (isMerchantOrPayroll (buildGraph hubCycleInput) "H" = true) ∧
    (((buildGraph hubCycleInput).ndata "H").senders.length = 25) ∧
    (((buildGraph hubCycleInput).ndata "H").receivers.length = 1) ∧
    ¬ (∀ r ∈ (runEngine hubCycleInput).fraud_rings, "H" ∉ r.member_accounts) := by
  with_unfolding_all decide

/-- C10: ingesting one self-loop record creates one node and one edge on
that node, counts both the send and the receive on the same node, records
the node in its own senders and receivers sets, and logs the timestamp
twice. -/
theorem self_loop_ingestion (s : String) (amt : ℚ) (ts : ℤ) :
    ((buildGraph [⟨s, s, amt, ts⟩]).nodes = [s]) ∧
    ((buildGraph [⟨s, s, amt, ts⟩]).edges = [(s, s)]) ∧
    (((buildGraph [⟨s, s, amt, ts⟩]).ndata s).txCount = 2) ∧
    (((buildGraph [⟨s, s, amt, ts⟩]).ndata s).senders = [s]) ∧
    (((buildGraph [⟨s, s, amt, ts⟩]).ndata s).receivers = [s]) ∧
    (((buildGraph [⟨s, s, amt, ts⟩]).ndata s).timestamps = [ts, ts]) ∧
    (((buildGraph [⟨s, s, amt, ts⟩]).edata s s).count = 1) := by
  simp [buildGraph, ingest, ingestStats, addNode, updNode, updEdge, addDistinct,
    emptyNode]

/-
  Helper lemmas about the sorting and window machinery of
  _temporal_concentration.
-/

theorem insertInt_length (x : ℤ) (l : List ℤ) :
    (insertInt x l).length = l.length + 1 := by
  induction l with
  | nil => rfl
  | cons y ys ih => by_cases h : x ≤ y <;> simp [insertInt, h, ih]

theorem insertInt_mem (a x : ℤ) (l : List ℤ) :
    a ∈ insertInt x l ↔ a = x ∨ a ∈ l := by
  induction l with
  | nil => simp [insertInt]
  | cons y ys ih =>
    by_cases h : x ≤ y
    · simp [insertInt, h]
    · simp [insertInt, h, ih]; tauto

theorem sortInts_length (l : List ℤ) : (sortInts l).length = l.length := by
  induction l with
  | nil => rfl
  | cons y ys ih => simp [sortInts, List.foldr] at ih ⊢; rw [insertInt_length, ih]

theorem sortInts_mem (a : ℤ) (l : List ℤ) : a ∈ sortInts l ↔ a ∈ l := by
  induction l with
  | nil => simp [sortInts]
  | cons y ys ih =>
    simp only [sortInts, List.foldr] at ih ⊢
    rw [insertInt_mem, ih, List.mem_cons]

theorem tempConcTs_nonneg (l : List ℤ) : 0 ≤ tempConcTs l := by
  unfold tempConcTs
  split
  · exact le_refl 0
  · exact le_min (by norm_num) (by positivity)

theorem tempConcTs_le_one (l : List ℤ) : tempConcTs l ≤ 1 := by
  unfold tempConcTs
  split
  · norm_num
  · exact min_le_left 1 _

/-- C9: the temporal-concentration helper returns 0 on fewer than 3
timestamps, always lies in the unit interval, and returns exactly 1 when
at least 3 timestamps all fall inside one 72-hour window. -/
theorem temporal_concentration_props (l : List ℤ) :
    (l.length < 3 → tempConcTs l = 0) ∧
    (0 ≤ tempConcTs l ∧ tempConcTs l ≤ 1) ∧
    (3 ≤ l.length → (∀ a ∈ l, ∀ b ∈ l, a - b ≤ windowSecs) → tempConcTs l = 1) := by
  refine ⟨fun h => by simp [tempConcTs, h],
    ⟨tempConcTs_nonneg l, tempConcTs_le_one l⟩, fun h3 hw => ?_⟩
  have hlen : ¬ l.length < 3 := not_lt.mpr h3
  have hpos : (0 : ℚ) < (l.length : ℚ) := by
    exact_mod_cast Nat.lt_of_lt_of_le (by norm_num) h3
  rw [tempConcTs, if_neg hlen]
  have hne : sortInts l ≠ [] := by
    intro h
    rw [← List.length_eq_zero, sortInts_length] at h
    omega
  obtain ⟨t, rest, hs⟩ := List.exists_cons_of_ne_nil hne
  have hfilter :
      ((t :: rest).filter (fun u => decide (u - t ≤ windowSecs))).length
        = l.length := by
    have hall : ∀ u ∈ t :: rest, (fun u => decide (u - t ≤ windowSecs)) u = true := by
      intro u hu
      have hu' : u ∈ l := (sortInts_mem u l).mp (hs ▸ hu)
      have ht' : t ∈ l := (sortInts_mem t l).mp (hs ▸ List.mem_cons_self t rest)
      simpa using hw u hu' t ht'
    rw [List.filter_eq_self.mpr hall]
    have := sortInts_length l
    rw [hs] at this
    exact this
  have hmw : l.length ≤ maxWindow (sortInts l) := by
    rw [hs, maxWindow, ← hfilter]
    exact le_max_left _ _
  have h1le : (1 : ℚ) ≤ (maxWindow (sortInts l) : ℚ) / (l.length : ℚ) := by
    rw [le_div_iff₀ hpos, one_mul]
    exact_mod_cast hmw
  exact min_eq_left h1le

/-- C9 witness: the property instantiated at a burst of three timestamps
within one hour and at a single timestamp. -/
theorem temporal_concentration_props_witness :
    tempConcTs [0, 10, 20] = 1 ∧ tempConcTs [0] = 0 :=
  ⟨(temporal_concentration_props [0, 10, 20]).2.2 (by decide)
     (by intro a ha b hb; fin_cases ha <;> fin_cases hb <;> decide),
   (temporal_concentration_props [0]).1 (by decide)⟩

/-
  Generic preservation infrastructure.
-/

theorem foldl_preserves {α β : Type} (P : β → Prop) (f : β → α → β)
    (l : List α) (b : β) (h : ∀ b' a, a ∈ l → P b' → P (f b' a)) (hb : P b) :
    P (l.foldl f b) := by
  induction l generalizing b with
  | nil => exact hb
  | cons x xs ih =>
    exact ih (f b x) (fun b' a ha => h b' a (List.mem_cons_of_mem _ ha))
      (h b x (List.mem_cons_self _ _) hb)

theorem round1_nonneg {x : ℚ} (h : 0 ≤ x) : 0 ≤ round1 x := by
  unfold round1
  have hf : (0 : ℤ) ≤ (x * 10 + 1 / 2).floor :=
    Rat.le_floor.mpr (by push_cast; nlinarith)
  have : (0 : ℚ) ≤ ((x * 10 + 1 / 2).floor : ℚ) := by exact_mod_cast hf
  positivity

theorem round1_le_100 {x : ℚ} (h : x ≤ 100) : round1 x ≤ 100 := by
  unfold round1
  have hf : (x * 10 + 1 / 2).floor ≤ 1000 := by
    by_contra hc
    have h1 : (1001 : ℤ) ≤ (x * 10 + 1 / 2).floor := by omega
    have := Rat.le_floor.mp h1
    push_cast at this
    nlinarith
  have hq : (((x * 10 + 1 / 2).floor : ℤ) : ℚ) ≤ 1000 := by exact_mod_cast hf
  linarith

theorem insertDesc_mem (x e : SuspEntry) (l : List SuspEntry) :
    x ∈ insertDesc e l ↔ x = e ∨ x ∈ l := by
  induction l with
  | nil => simp [insertDesc]
  | cons y ys ih =>
    by_cases h : e.suspicion_score ≤ y.suspicion_score
    · simp [insertDesc, h, ih]; tauto
    · simp [insertDesc, h]

theorem sortDesc_mem {x : SuspEntry} {l : List SuspEntry}
    (hx : x ∈ sortDesc l) : x ∈ l := by
  have : ∀ y ∈ sortDesc l, y ∈ l := by
    refine foldl_preserves (fun acc => ∀ y ∈ acc, y ∈ l)
      (fun acc e => insertDesc e acc) l [] ?_ (fun y hy => absurd hy (List.not_mem_nil y))
    intro acc e he hacc y hy
    rcases (insertDesc_mem y e acc).mp hy with h | h
    · exact h ▸ he
    · exact hacc y h
  exact this x hx

/-
  Lemmas about the claimed-accounts map and the reconciliation pass.
-/

theorem lookupClaim_append_single (cl : List (String × ℕ)) (a : String)
    (rid : ℕ) (x : String) :
    lookupClaim (cl ++ [(a, rid)]) x =
      if (lookupClaim cl x).isSome then lookupClaim cl x
      else if x = a then some rid else none := by
  unfold lookupClaim
  rw [List.find?_append]
  cases h : cl.find? (fun p => p.1 == x) with
  | none =>
    simp only [Option.none_orElse, Option.map_none', Option.isSome_none,
      Bool.false_eq_true, if_false]
    by_cases hx : x = a
    · subst hx; simp [List.find?]
    · have hba : (a == x) = false := beq_false_of_ne (fun h' => hx h'.symm)
      simp [List.find?, hba, hx]
  | some p => simp [h]

theorem claimMembers_spec (rid : ℕ) (ms : List String) (cl : List (String × ℕ)) :
    (∀ x, (lookupClaim cl x).isSome →
        lookupClaim (claimMembers rid ms cl).2 x = lookupClaim cl x) ∧
    (∀ a ∈ (claimMembers rid ms cl).1, lookupClaim cl a = none) ∧
    (∀ a ∈ (claimMembers rid ms cl).1,
        (lookupClaim (claimMembers rid ms cl).2 a).isSome) ∧
    (∀ a ∈ (claimMembers rid ms cl).1, a ∈ ms) ∧
    ((claimMembers rid ms cl).1.length ≤ ms.length) := by
  induction ms generalizing cl with
  | nil => simp [claimMembers]
  | cons m rest ih =>
    by_cases hm : (lookupClaim cl m).isSome
    · rw [claimMembers, if_pos hm]
      obtain ⟨ih1, ih2, ih3, ih4, ih5⟩ := ih cl
      refine ⟨ih1, fun a ha => ih2 a ha, ih3, ?_, ?_⟩
      · exact fun a ha => List.mem_cons_of_mem _ (ih4 a ha)
      · simpa using Nat.le_succ_of_le ih5
    · rw [claimMembers, if_neg hm]
      obtain ⟨ih1, ih2, ih3, ih4, ih5⟩ := ih (cl ++ [(m, rid)])
      have hkeep : ∀ x, (lookupClaim cl x).isSome →
          lookupClaim (cl ++ [(m, rid)]) x = lookupClaim cl x := by
        intro x hx
        rw [lookupClaim_append_single, if_pos hx]
      have hmem : (lookupClaim (cl ++ [(m, rid)]) m).isSome := by
        rw [lookupClaim_append_single, if_neg hm, if_pos rfl]
        rfl
      refine ⟨?_, ?_, ?_, ?_, ?_⟩
      · intro x hx
        rw [ih1 x (by rw [hkeep x hx]; exact hx), hkeep x hx]
      · intro a ha
        rcases List.mem_cons.mp ha with rfl | ha'
        · exact Option.not_isSome_iff_eq_none.mp hm
        · have := ih2 a ha'
          rw [lookupClaim_append_single] at this
          by_cases hcl : (lookupClaim cl a).isSome
          · rw [if_pos hcl] at this
            exact this
          · exact Option.not_isSome_iff_eq_none.mp hcl
      · intro a ha
        rcases List.mem_cons.mp ha with rfl | ha'
        · rw [ih1 a hmem]; exact hmem
        · exact ih3 a ha'
      · intro a ha
        rcases List.mem_cons.mp ha with rfl | ha'
        · exact List.mem_cons_self _ _
        · exact List.mem_cons_of_mem _ (ih4 a ha')
      · simpa using Nat.succ_le_succ ih5

theorem reconcileRings_inv (rs : List Ring) (cl : List (String × ℕ)) :
    (∀ r ∈ (reconcileRings rs cl).1, 2 ≤ r.member_accounts.length) ∧
    (∀ r ∈ (reconcileRings rs cl).1, ∀ a ∈ r.member_accounts,
        lookupClaim cl a = none) ∧
    (reconcileRings rs cl).1.Pairwise
      (fun r₁ r₂ => ∀ a ∈ r₁.member_accounts, a ∉ r₂.member_accounts) := by
  induction rs generalizing cl with
  | nil => simp [reconcileRings]
  | cons r rest ih =>
    obtain ⟨c1, c2, c3, _, _⟩ := claimMembers_spec r.ring_id r.member_accounts cl
    set cl' := (claimMembers r.ring_id r.member_accounts cl).2 with hcl'
    obtain ⟨ih1, ih2, ih3⟩ := ih cl'
    have hmono : ∀ x, lookupClaim cl' x = none → lookupClaim cl x = none := by
      intro x hx
      by_contra hc
      have hs : (lookupClaim cl x).isSome := Option.ne_none_iff_isSome.mp hc
      have := c1 x hs
      rw [hx] at this
      exact hc this.symm
    rw [reconcileRings]
    by_cases hlen : 2 ≤ (claimMembers r.ring_id r.member_accounts cl).1.length
    · rw [if_pos hlen]
      refine ⟨?_, ?_, ?_⟩
      · intro r' hr'
        rcases List.mem_cons.mp hr' with rfl | hr''
        · exact hlen
        · exact ih1 r' hr''
      · intro r' hr' a ha
        rcases List.mem_cons.mp hr' with rfl | hr''
        · exact c2 a ha
        · exact hmono a (ih2 r' hr'' a ha)
      · refine List.pairwise_cons.mpr ⟨?_, ih3⟩
        intro r' hr' a ha hcontra
        have h1 := c3 a ha
        have h2 := ih2 r' hr' a hcontra
        rw [h2] at h1
        exact absurd h1 (by simp)
    · rw [if_neg hlen]
      refine ⟨ih1, fun r' hr' a ha => hmono a (ih2 r' hr' a ha), ih3⟩

theorem reconcileRings_from (rs : List Ring) (cl : List (String × ℕ)) :
    ∀ r' ∈ (reconcileRings rs cl).1, ∃ r ∈ rs,
      r'.ring_id = r.ring_id ∧ r'.pattern_type = r.pattern_type ∧
      r'.risk_score = r.risk_score ∧
      r'.member_accounts.length ≤ r.member_accounts.length ∧
      ∀ a ∈ r'.member_accounts, a ∈ r.member_accounts := by
  induction rs generalizing cl with
  | nil => simp [reconcileRings]
  | cons r rest ih =>
    intro r' hr'
    obtain ⟨_, _, _, c4, c5⟩ := claimMembers_spec r.ring_id r.member_accounts cl
    rw [reconcileRings] at hr'
    by_cases hlen : 2 ≤ (claimMembers r.ring_id r.member_accounts cl).1.length
    · rw [if_pos hlen] at hr'
      rcases List.mem_cons.mp hr' with rfl | hr''
      · exact ⟨r, List.mem_cons_self _ _, rfl, rfl, rfl, c5, c4⟩
      · obtain ⟨r₀, hr₀, hprops⟩ := ih _ r' hr''
        exact ⟨r₀, List.mem_cons_of_mem _ hr₀, hprops⟩
    · rw [if_neg hlen] at hr'
      obtain ⟨r₀, hr₀, hprops⟩ := ih _ r' hr'
      exact ⟨r₀, List.mem_cons_of_mem _ hr₀, hprops⟩

/-- C5: on every input, every ring of the final output has at least two
member accounts, and the member lists of distinct output rings are
pairwise disjoint. -/
theorem final_rings_disjoint_min2 (records : List Record) :
    (∀ r ∈ (runEngine records).fraud_rings, 2 ≤ r.member_accounts.length) ∧
    (runEngine records).fraud_rings.Pairwise
      (fun r₁ r₂ => ∀ a ∈ r₁.member_accounts, a ∉ r₂.member_accounts) := by
  obtain ⟨h1, -, h3⟩ := reconcileRings_inv
    (detectHighVelocity (buildGraph records)
      (detectShellNetworks (buildGraph records)
        (detectSmurfing (buildGraph records)
          (detectCycles (buildGraph records) ⟨[], [], 0⟩)))).rings []
  constructor
  · intro r hr
    obtain ⟨r₀, hr₀, hre⟩ := List.mem_map.mp hr
    subst hre
    exact h1 r₀ hr₀
  · exact List.Pairwise.map _ (fun a b h => h) h3

/-
  Score and risk range invariants, towards C6. Throughout, the suspicion
  part says every entry's score lies in the range 0 to 100 and the risk
  part says every registered ring's risk does.
-/

theorem addNode_edges (g : Graph) (x : String) : (addNode g x).edges = g.edges := by
  unfold addNode; split <;> rfl

theorem addNode_edata (g : Graph) (x : String) : (addNode g x).edata = g.edata := by
  unfold addNode; split <;> rfl

theorem ingestStats_edges (g : Graph) (r : Record) :
    (ingestStats g r).edges = g.edges := by
  show (addNode (addNode g r.sender) r.receiver).edges = g.edges
  rw [addNode_edges, addNode_edges]

theorem ingestStats_edata (g : Graph) (r : Record) :
    (ingestStats g r).edata = g.edata := by
  show (addNode (addNode g r.sender) r.receiver).edata = g.edata
  rw [addNode_edata, addNode_edata]

theorem ingest_edata (g : Graph) (r : Record) (u v : String) :
    (ingest g r).edata u v =
      if u = r.sender ∧ v = r.receiver then
        (if (r.sender, r.receiver) ∈ g.edges then
           ⟨(g.edata u v).weight + r.amount, (g.edata u v).count + 1,
            (g.edata u v).timestamps ++ [r.ts]⟩
         else ⟨r.amount, 1, [r.ts]⟩)
      else g.edata u v := by
  unfold ingest
  simp only [ingestStats_edges]
  by_cases hmem : (r.sender, r.receiver) ∈ g.edges
  · rw [if_pos hmem, if_pos hmem]
    show (if u = r.sender ∧ v = r.receiver then _ else (ingestStats g r).edata u v) = _
    rw [ingestStats_edata]
  · rw [if_neg hmem, if_neg hmem]
    show (if u = r.sender ∧ v = r.receiver then _ else (ingestStats g r).edata u v) = _
    rw [ingestStats_edata]

theorem ingest_weight_nonneg (g : Graph) (r : Record) (hr : 0 ≤ r.amount)
    (hg : ∀ u v, 0 ≤ (g.edata u v).weight) :
    ∀ u v, 0 ≤ ((ingest g r).edata u v).weight := by
  intro u v
  rw [ingest_edata]
  split
  · split
    · exact add_nonneg (hg u v) hr
    · exact hr
  · exact hg u v

theorem buildGraph_weight_nonneg (records : List Record)
    (h : ∀ r ∈ records, 0 ≤ r.amount) :
    ∀ u v, 0 ≤ ((buildGraph records).edata u v).weight := by
  unfold buildGraph
  refine foldl_preserves (fun g => ∀ u v, 0 ≤ (g.edata u v).weight)
    ingest records _ ?_ ?_
  · intro g r hrmem hg
    exact ingest_weight_nonneg g r (h r hrmem) hg
  · intro u v
    exact le_refl 0

theorem cycleFlow_nonneg (g : Graph) (cyc : List String)
    (hw : ∀ u v, 0 ≤ (g.edata u v).weight) : 0 ≤ cycleFlow g cyc := by
  unfold cycleFlow
  refine foldl_preserves (fun fl => 0 ≤ fl) _ _ _ ?_ (le_refl 0)
  intro fl p _ hfl
  split
  · exact add_nonneg hfl (hw p.1 p.2)
  · exact hfl

theorem round1_bounds {x : ℚ} (h0 : 0 ≤ x) (h1 : x ≤ 100) :
    0 ≤ round1 x ∧ round1 x ≤ 100 :=
  ⟨round1_nonneg h0, round1_le_100 h1⟩

theorem min100_bounds {x : ℚ} (h0 : 0 ≤ x) :
    0 ≤ min 100 x ∧ min 100 x ≤ 100 :=
  ⟨le_min (by norm_num) h0, min_le_left 100 x⟩

theorem flagAccount_suspicious_bounds (st : EngineState) (acc pattern : String)
    (rid : ℕ) (base : ℚ) (hb : 0 ≤ base)
    (h : ∀ e ∈ st.suspicious, 0 ≤ e.suspicion_score ∧ e.suspicion_score ≤ 100) :
    ∀ e ∈ (flagAccount st acc pattern rid base).suspicious,
      0 ≤ e.suspicion_score ∧ e.suspicion_score ≤ 100 := by
  intro e' he'
  simp only [flagAccount] at he'
  obtain ⟨e, he, hfe⟩ := List.mem_map.mp he'
  have hbounds : 0 ≤ e.suspicion_score ∧ e.suspicion_score ≤ 100 := by
    by_cases hany : st.suspicious.any (fun x => x.account_id == acc)
    · rw [if_pos hany] at he
      exact h e he
    · rw [if_neg hany] at he
      rcases List.mem_append.mp he with hmem | hmem
      · exact h e hmem
      · have : e = ⟨acc, 0, [], rid⟩ := List.mem_singleton.mp hmem
        subst this
        exact ⟨le_refl 0, by norm_num⟩
  by_cases hacc : e.account_id = acc
  · rw [if_pos hacc] at hfe
    subst hfe
    dsimp only
    refine ⟨le_min (by norm_num) (add_nonneg hbounds.1 hb), min_le_left _ _⟩
  · rw [if_neg hacc] at hfe
    subst hfe
    exact hbounds

theorem flagAccount_rings (st : EngineState) (acc pattern : String)
    (rid : ℕ) (base : ℚ) :
    (flagAccount st acc pattern rid base).rings = st.rings := rfl

theorem registerCycle_bounds (g : Graph)
    (hw : ∀ u v, 0 ≤ (g.edata u v).weight)
    (acc : List (List String) × EngineState) (cyc : List String)
    (h : (∀ e ∈ acc.2.suspicious, 0 ≤ e.suspicion_score ∧ e.suspicion_score ≤ 100) ∧
         (∀ r ∈ acc.2.rings, 0 ≤ r.risk_score ∧ r.risk_score ≤ 100)) :
    (∀ e ∈ (registerCycle g acc cyc).2.suspicious,
        0 ≤ e.suspicion_score ∧ e.suspicion_score ≤ 100) ∧
    (∀ r ∈ (registerCycle g acc cyc).2.rings,
        0 ≤ r.risk_score ∧ r.risk_score ≤ 100) := by
  obtain ⟨seen, st⟩ := acc
  simp only [registerCycle]
  split
  · exact h
  · dsimp only at h ⊢
    have hflow := cycleFlow_nonneg g cyc hw
    have hrisk0 : (0:ℚ) ≤ 60 + cycleFlow g cyc / (max (cyc.length : ℚ) 1) * (1 / 200)
        + (cyc.length : ℚ) * 5 := by positivity
    obtain ⟨hm0, hm1⟩ := min100_bounds hrisk0
    have hround := round1_bounds hm0 hm1
    refine foldl_preserves (fun st' : EngineState =>
        (∀ e ∈ st'.suspicious, 0 ≤ e.suspicion_score ∧ e.suspicion_score ≤ 100) ∧
        (∀ r ∈ st'.rings, 0 ≤ r.risk_score ∧ r.risk_score ≤ 100))
      _ cyc _ ?_ ?_
    · intro st' a _ hst'
      split
      · exact hst'
      · exact ⟨flagAccount_suspicious_bounds st' a _ _ _ (by positivity) hst'.1,
          fun r hr => by rw [flagAccount_rings] at hr; exact hst'.2 r hr⟩
    · refine ⟨h.1, ?_⟩
      intro r hr
      rcases List.mem_append.mp hr with hmem | hmem
      · exact h.2 r hmem
      · have : r = ⟨st.ringCounter + 1, cyc, "cycle", round1 (min 100 (60 +
            cycleFlow g cyc / (max (cyc.length : ℚ) 1) * (1 / 200) +
            (cyc.length : ℚ) * 5))⟩ := List.mem_singleton.mp hmem
        subst this
        exact hround

theorem detectCycles_bounds (g : Graph)
    (hw : ∀ u v, 0 ≤ (g.edata u v).weight) (st : EngineState)
    (h : (∀ e ∈ st.suspicious, 0 ≤ e.suspicion_score ∧ e.suspicion_score ≤ 100) ∧
         (∀ r ∈ st.rings, 0 ≤ r.risk_score ∧ r.risk_score ≤ 100)) :
    (∀ e ∈ (detectCycles g st).suspicious,
        0 ≤ e.suspicion_score ∧ e.suspicion_score ≤ 100) ∧
    (∀ r ∈ (detectCycles g st).rings, 0 ≤ r.risk_score ∧ r.risk_score ≤ 100) := by
  unfold detectCycles
  exact foldl_preserves (fun p : List (List String) × EngineState =>
      (∀ e ∈ p.2.suspicious, 0 ≤ e.suspicion_score ∧ e.suspicion_score ≤ 100) ∧
      (∀ r ∈ p.2.rings, 0 ≤ r.risk_score ∧ r.risk_score ≤ 100))
    (registerCycle g) (dfsCycles g) ([], st)
    (fun p cyc _ hp => registerCycle_bounds g hw p cyc hp) h

theorem flagPatterns_bounds (st : EngineState) (a : String) (pats : List String)
    (rid : ℕ) (base' : ℚ) (hb : 0 ≤ base')
    (h : (∀ e ∈ st.suspicious, 0 ≤ e.suspicion_score ∧ e.suspicion_score ≤ 100) ∧
         (∀ r ∈ st.rings, 0 ≤ r.risk_score ∧ r.risk_score ≤ 100)) :
    (∀ e ∈ (pats.foldl (fun st' p => flagAccount st' a p rid base') st).suspicious,
        0 ≤ e.suspicion_score ∧ e.suspicion_score ≤ 100) ∧
    (∀ r ∈ (pats.foldl (fun st' p => flagAccount st' a p rid base') st).rings,
        0 ≤ r.risk_score ∧ r.risk_score ≤ 100) := by
  refine foldl_preserves (fun st' : EngineState =>
      (∀ e ∈ st'.suspicious, 0 ≤ e.suspicion_score ∧ e.suspicion_score ≤ 100) ∧
      (∀ r ∈ st'.rings, 0 ≤ r.risk_score ∧ r.risk_score ≤ 100)) _ pats st ?_ h
  intro st' p _ hst'
  exact ⟨flagAccount_suspicious_bounds st' a p rid base' hb hst'.1,
    fun r hr => by rw [flagAccount_rings] at hr; exact hst'.2 r hr⟩

theorem flagMembers_bounds (members : List String) (t : ℚ) (firstPat : String)
    (rid : ℕ) (base' : ℚ) (hb : 0 ≤ base') (st : EngineState)
    (h : (∀ e ∈ st.suspicious, 0 ≤ e.suspicion_score ∧ e.suspicion_score ≤ 100) ∧
         (∀ r ∈ st.rings, 0 ≤ r.risk_score ∧ r.risk_score ≤ 100)) :
    (∀ e ∈ (members.foldl (fun st' a =>
        (smurfPatterns t firstPat).foldl (fun st'' p =>
          flagAccount st'' a p rid base') st') st).suspicious,
        0 ≤ e.suspicion_score ∧ e.suspicion_score ≤ 100) ∧
    (∀ r ∈ (members.foldl (fun st' a =>
        (smurfPatterns t firstPat).foldl (fun st'' p =>
          flagAccount st'' a p rid base') st') st).rings,
        0 ≤ r.risk_score ∧ r.risk_score ≤ 100) := by
  refine foldl_preserves (fun st' : EngineState =>
      (∀ e ∈ st'.suspicious, 0 ≤ e.suspicion_score ∧ e.suspicion_score ≤ 100) ∧
      (∀ r ∈ st'.rings, 0 ≤ r.risk_score ∧ r.risk_score ≤ 100)) _ members st ?_ h
  intro st' a _ hst'
  exact flagPatterns_bounds st' a _ rid _ hb hst'

theorem fanInStep_bounds (g : Graph) (st : EngineState) (node : String)
    (h : (∀ e ∈ st.suspicious, 0 ≤ e.suspicion_score ∧ e.suspicion_score ≤ 100) ∧
         (∀ r ∈ st.rings, 0 ≤ r.risk_score ∧ r.risk_score ≤ 100)) :
    (∀ e ∈ (fanInStep g st node).suspicious,
        0 ≤ e.suspicion_score ∧ e.suspicion_score ≤ 100) ∧
    (∀ r ∈ (fanInStep g st node).rings, 0 ≤ r.risk_score ∧ r.risk_score ≤ 100) := by
  unfold fanInStep
  dsimp only
  split
  · have ht : 0 ≤ temporalConcentration g (inEdges g node) := tempConcTs_nonneg _
    have hbase : (0:ℚ) ≤ 35 + ((min ((g.ndata node).senders.length) 50 : ℕ) : ℚ) * (3 / 5)
        + temporalConcentration g (inEdges g node) * 15 :=
      add_nonneg (add_nonneg (by norm_num)
        (mul_nonneg (Nat.cast_nonneg _) (by norm_num))) (mul_nonneg ht (by norm_num))
    have hb' : (0:ℚ) ≤ (35 + ((min ((g.ndata node).senders.length) 50 : ℕ) : ℚ) * (3 / 5)
        + temporalConcentration g (inEdges g node) * 15) * (7 / 10) /
        ((smurfPatterns (temporalConcentration g (inEdges g node)) "fan_in").length : ℚ) :=
      div_nonneg (mul_nonneg hbase (by norm_num)) (Nat.cast_nonneg _)
    obtain ⟨hm0, hm1⟩ := min100_bounds hbase
    have hround := round1_bounds hm0 hm1
    split
    · refine flagMembers_bounds _ _ "fan_in" _ _ hb' _ ⟨h.1, ?_⟩
      intro r hr
      rcases List.mem_append.mp hr with hmem | hmem
      · exact h.2 r hmem
      · rw [List.mem_singleton.mp hmem]
        exact hround
    · exact h
  · exact h

theorem fanOutStep_bounds (g : Graph) (st : EngineState) (node : String)
    (h : (∀ e ∈ st.suspicious, 0 ≤ e.suspicion_score ∧ e.suspicion_score ≤ 100) ∧
         (∀ r ∈ st.rings, 0 ≤ r.risk_score ∧ r.risk_score ≤ 100)) :
    (∀ e ∈ (fanOutStep g st node).suspicious,
        0 ≤ e.suspicion_score ∧ e.suspicion_score ≤ 100) ∧
    (∀ r ∈ (fanOutStep g st node).rings, 0 ≤ r.risk_score ∧ r.risk_score ≤ 100) := by
  unfold fanOutStep
  dsimp only
  split
  · have ht : 0 ≤ temporalConcentration g (outEdges g node) := tempConcTs_nonneg _
    have hbase : (0:ℚ) ≤ 35 + ((min ((g.ndata node).receivers.length) 50 : ℕ) : ℚ) * (3 / 5)
        + temporalConcentration g (outEdges g node) * 15 :=
      add_nonneg (add_nonneg (by norm_num)
        (mul_nonneg (Nat.cast_nonneg _) (by norm_num))) (mul_nonneg ht (by norm_num))
    have hb' : (0:ℚ) ≤ (35 + ((min ((g.ndata node).receivers.length) 50 : ℕ) : ℚ) * (3 / 5)
        + temporalConcentration g (outEdges g node) * 15) * (7 / 10) /
        ((smurfPatterns (temporalConcentration g (outEdges g node)) "fan_out").length : ℚ) :=
      div_nonneg (mul_nonneg hbase (by norm_num)) (Nat.cast_nonneg _)
    obtain ⟨hm0, hm1⟩ := min100_bounds hbase
    have hround := round1_bounds hm0 hm1
    split
    · refine flagMembers_bounds _ _ "fan_out" _ _ hb' _ ⟨h.1, ?_⟩
      intro r hr
      rcases List.mem_append.mp hr with hmem | hmem
      · exact h.2 r hmem
      · rw [List.mem_singleton.mp hmem]
        exact hround
    · exact h
  · exact h

theorem detectSmurfing_bounds (g : Graph) (st : EngineState)
    (h : (∀ e ∈ st.suspicious, 0 ≤ e.suspicion_score ∧ e.suspicion_score ≤ 100) ∧
         (∀ r ∈ st.rings, 0 ≤ r.risk_score ∧ r.risk_score ≤ 100)) :
    (∀ e ∈ (detectSmurfing g st).suspicious,
        0 ≤ e.suspicion_score ∧ e.suspicion_score ≤ 100) ∧
    (∀ r ∈ (detectSmurfing g st).rings, 0 ≤ r.risk_score ∧ r.risk_score ≤ 100) := by
  unfold detectSmurfing
  refine foldl_preserves (fun st' : EngineState =>
      (∀ e ∈ st'.suspicious, 0 ≤ e.suspicion_score ∧ e.suspicion_score ≤ 100) ∧
      (∀ r ∈ st'.rings, 0 ≤ r.risk_score ∧ r.risk_score ≤ 100)) _ g.nodes st ?_ h
  intro st' node _ hst'
  split
  · exact hst'
  · exact fanOutStep_bounds g _ node (fanInStep_bounds g st' node hst')

theorem registerChain_bounds (g : Graph) (shellCands : List String)
    (st : EngineState) (newPath : List String)
    (h : (∀ e ∈ st.suspicious, 0 ≤ e.suspicion_score ∧ e.suspicion_score ≤ 100) ∧
         (∀ r ∈ st.rings, 0 ≤ r.risk_score ∧ r.risk_score ≤ 100)) :
    (∀ e ∈ (registerChain g shellCands st newPath).suspicious,
        0 ≤ e.suspicion_score ∧ e.suspicion_score ≤ 100) ∧
    (∀ r ∈ (registerChain g shellCands st newPath).rings,
        0 ≤ r.risk_score ∧ r.risk_score ≤ 100) := by
  unfold registerChain
  dsimp only
  have hrisk0 : (0:ℚ) ≤ 50 +
      ((((newPath.drop 1).dropLast).filter (fun n => shellCands.contains n)).length : ℚ) * 10 +
      (newPath.length : ℚ) * 3 := by positivity
  obtain ⟨hm0, hm1⟩ := min100_bounds hrisk0
  have hround := round1_bounds hm0 hm1
  refine foldl_preserves (fun st' : EngineState =>
      (∀ e ∈ st'.suspicious, 0 ≤ e.suspicion_score ∧ e.suspicion_score ≤ 100) ∧
      (∀ r ∈ st'.rings, 0 ≤ r.risk_score ∧ r.risk_score ≤ 100)) _ newPath _ ?_ ?_
  · intro st' a _ hst'
    split
    · exact hst'
    · exact ⟨flagAccount_suspicious_bounds st' a _ _ _ (by positivity) hst'.1,
        fun r hr => by rw [flagAccount_rings] at hr; exact hst'.2 r hr⟩
  · refine ⟨h.1, ?_⟩
    intro r hr
    rcases List.mem_append.mp hr with hmem | hmem
    · exact h.2 r hmem
    · rw [List.mem_singleton.mp hmem]
      exact hround

theorem shellSucc_bounds (g : Graph) (shellCands : List String) (fr : SFrame)
    (acc : List SFrame × List (List String) × EngineState) (nxt : String)
    (h : (∀ e ∈ acc.2.2.suspicious, 0 ≤ e.suspicion_score ∧ e.suspicion_score ≤ 100) ∧
         (∀ r ∈ acc.2.2.rings, 0 ≤ r.risk_score ∧ r.risk_score ≤ 100)) :
    (∀ e ∈ (shellSucc g shellCands fr acc nxt).2.2.suspicious,
        0 ≤ e.suspicion_score ∧ e.suspicion_score ≤ 100) ∧
    (∀ r ∈ (shellSucc g shellCands fr acc nxt).2.2.rings,
        0 ≤ r.risk_score ∧ r.risk_score ≤ 100) := by
  obtain ⟨stk, visited, st⟩ := acc
  unfold shellSucc
  dsimp only at h ⊢
  split
  · exact h
  · dsimp only
    split
    · exact registerChain_bounds g shellCands st _ h
    · exact h

theorem shellGo_bounds (g : Graph) (shellCands : List String) (fuel : ℕ)
    (stack : List SFrame) (visited : List (List String)) (st : EngineState)
    (h : (∀ e ∈ st.suspicious, 0 ≤ e.suspicion_score ∧ e.suspicion_score ≤ 100) ∧
         (∀ r ∈ st.rings, 0 ≤ r.risk_score ∧ r.risk_score ≤ 100)) :
    (∀ e ∈ (shellGo g shellCands fuel stack visited st).2.suspicious,
        0 ≤ e.suspicion_score ∧ e.suspicion_score ≤ 100) ∧
    (∀ r ∈ (shellGo g shellCands fuel stack visited st).2.rings,
        0 ≤ r.risk_score ∧ r.risk_score ≤ 100) := by
  induction fuel generalizing stack visited st with
  | zero => exact h
  | succ fuel ih =>
    match stack with
    | [] => exact h
    | fr :: rest =>
      rw [shellGo]
      split
      · exact ih rest visited st h
      · have hstep := foldl_preserves (fun acc : List SFrame × List (List String) × EngineState =>
          (∀ e ∈ acc.2.2.suspicious, 0 ≤ e.suspicion_score ∧ e.suspicion_score ≤ 100) ∧
          (∀ r ∈ acc.2.2.rings, 0 ≤ r.risk_score ∧ r.risk_score ≤ 100))
          (shellSucc g shellCands fr) (successors g fr.curr) (rest, visited, st)
          (fun acc nxt _ hacc => shellSucc_bounds g shellCands fr acc nxt hacc) h
        exact ih _ _ _ hstep

theorem detectShellNetworks_bounds (g : Graph) (st : EngineState)
    (h : (∀ e ∈ st.suspicious, 0 ≤ e.suspicion_score ∧ e.suspicion_score ≤ 100) ∧
         (∀ r ∈ st.rings, 0 ≤ r.risk_score ∧ r.risk_score ≤ 100)) :
    (∀ e ∈ (detectShellNetworks g st).suspicious,
        0 ≤ e.suspicion_score ∧ e.suspicion_score ≤ 100) ∧
    (∀ r ∈ (detectShellNetworks g st).rings,
        0 ≤ r.risk_score ∧ r.risk_score ≤ 100) := by
  unfold detectShellNetworks
  dsimp only
  split
  · exact h
  · have := foldl_preserves (fun acc : List (List String) × EngineState =>
      (∀ e ∈ acc.2.suspicious, 0 ≤ e.suspicion_score ∧ e.suspicion_score ≤ 100) ∧
      (∀ r ∈ acc.2.rings, 0 ≤ r.risk_score ∧ r.risk_score ≤ 100))
      (fun acc start => if (shellCandidates g).contains start then acc
        else shellGo g (shellCandidates g) ((g.nodes.length + 2) ^ 8)
          [⟨start, [start], 0⟩] acc.1 acc.2)
      g.nodes ([], st) ?_ h
    · exact this
    · intro acc start _ hacc
      dsimp only
      split
      · exact hacc
      · exact shellGo_bounds g (shellCandidates g) _ _ _ _ hacc

theorem detectHighVelocity_bounds (g : Graph) (st : EngineState)
    (h : (∀ e ∈ st.suspicious, 0 ≤ e.suspicion_score ∧ e.suspicion_score ≤ 100) ∧
         (∀ r ∈ st.rings, 0 ≤ r.risk_score ∧ r.risk_score ≤ 100)) :
    (∀ e ∈ (detectHighVelocity g st).suspicious,
        0 ≤ e.suspicion_score ∧ e.suspicion_score ≤ 100) ∧
    (∀ r ∈ (detectHighVelocity g st).rings,
        0 ≤ r.risk_score ∧ r.risk_score ≤ 100) := by
  unfold detectHighVelocity
  refine foldl_preserves (fun st' : EngineState =>
      (∀ e ∈ st'.suspicious, 0 ≤ e.suspicion_score ∧ e.suspicion_score ≤ 100) ∧
      (∀ r ∈ st'.rings, 0 ≤ r.risk_score ∧ r.risk_score ≤ 100)) _ g.nodes st ?_ h
  intro st' node _ hst'
  have hupd : ∀ e' ∈ st'.suspicious.map (fun e =>
      if e.account_id = node then
        { e with detected_patterns := e.detected_patterns ++ ["high_velocity"],
                 suspicion_score := min 100 (e.suspicion_score + 15) }
      else e), 0 ≤ e'.suspicion_score ∧ e'.suspicion_score ≤ 100 := by
    intro e' he'
    obtain ⟨e, he, hfe⟩ := List.mem_map.mp he'
    by_cases hacc : e.account_id = node
    · rw [if_pos hacc] at hfe
      subst hfe
      dsimp only
      exact ⟨le_min (by norm_num) (add_nonneg (hst'.1 e he).1 (by norm_num)),
        min_le_left _ _⟩
    · rw [if_neg hacc] at hfe
      subst hfe
      exact hst'.1 e he
  split
  · exact hst'
  · dsimp only
    split
    · exact hst'
    · split <;> split <;>
        first
          | exact hst'
          | (split <;> first | exact ⟨hupd, hst'.2⟩ | exact hst')

theorem reassignRing_score (cl : List (String × ℕ)) (e : SuspEntry) :
    (reassignRing cl e).suspicion_score = e.suspicion_score := by
  unfold reassignRing
  cases lookupClaim cl e.account_id <;> rfl

theorem reassignRing_account (cl : List (String × ℕ)) (e : SuspEntry) :
    (reassignRing cl e).account_id = e.account_id := by
  unfold reassignRing
  cases lookupClaim cl e.account_id <;> rfl

/-- C6: under the input contract that every record's amount is
non-negative, every suspicion score and every ring risk score of the final
output lies between 0 and 100. -/
theorem scores_within_range (records : List Record)
    (hamt : ∀ r ∈ records, 0 ≤ r.amount) :
    (∀ e ∈ (runEngine records).suspicious_accounts,
        0 ≤ e.suspicion_score ∧ e.suspicion_score ≤ 100) ∧
    (∀ r ∈ (runEngine records).fraud_rings,
        0 ≤ r.risk_score ∧ r.risk_score ≤ 100) := by
  have hw := buildGraph_weight_nonneg records hamt
  have h4 := detectHighVelocity_bounds (buildGraph records) _
    (detectShellNetworks_bounds (buildGraph records) _
      (detectSmurfing_bounds (buildGraph records) _
        (detectCycles_bounds (buildGraph records) hw ⟨[], [], 0⟩
          ⟨fun e he => absurd he (List.not_mem_nil e),
           fun r hr => absurd hr (List.not_mem_nil r)⟩)))
  constructor
  · intro e' he'
    obtain ⟨e₁, he₁, hfe⟩ := List.mem_map.mp he'
    have he₂ := sortDesc_mem he₁
    have he₃ := List.mem_of_mem_filter he₂
    obtain ⟨e₀, he₀, hfe0⟩ := List.mem_map.mp he₃
    have hb := h4.1 e₀ he₀
    have hsc : e₁.suspicion_score = e₀.suspicion_score := by
      rw [← hfe0, reassignRing_score]
    rw [← hfe]
    dsimp only
    rw [hsc]
    exact round1_bounds hb.1 hb.2
  · intro r' hr'
    obtain ⟨r₁, hr₁, hfr⟩ := List.mem_map.mp hr'
    obtain ⟨r₀, hr₀, -, -, hrisk, -, -⟩ := reconcileRings_from _ [] r₁ hr₁
    have hb := h4.2 r₀ hr₀
    rw [← hfr]
    dsimp only
    rw [hrisk]
    exact round1_bounds hb.1 hb.2

/-- C6 witness: the range property instantiated at the three-cycle
scenario input, whose amounts are non-negative. -/
theorem scores_within_range_witness :
    (∀ e ∈ (runEngine cycle3Input).suspicious_accounts,
        0 ≤ e.suspicion_score ∧ e.suspicion_score ≤ 100) ∧
    (∀ r ∈ (runEngine cycle3Input).fraud_rings,
        0 ≤ r.risk_score ∧ r.risk_score ≤ 100) :=
  scores_within_range cycle3Input (by intro r hr; fin_cases hr <;> norm_num)

/-
  Non-hub invariants, towards the amended C2: every flagged account is a
  non-hub node, and every smurfing ring contains only non-hub members.
-/

theorem flagAccount_nonhub (g : Graph) (st : EngineState) (acc pattern : String)
    (rid : ℕ) (base : ℚ) (hacc : isMerchantOrPayroll g acc = false)
    (h : ∀ e ∈ st.suspicious, isMerchantOrPayroll g e.account_id = false) :
    ∀ e ∈ (flagAccount st acc pattern rid base).suspicious,
      isMerchantOrPayroll g e.account_id = false := by
  intro e' he'
  simp only [flagAccount] at he'
  obtain ⟨e, he, hfe⟩ := List.mem_map.mp he'
  have hbase : isMerchantOrPayroll g e.account_id = false := by
    by_cases hany : st.suspicious.any (fun x => x.account_id == acc)
    · rw [if_pos hany] at he
      exact h e he
    · rw [if_neg hany] at he
      rcases List.mem_append.mp he with hmem | hmem
      · exact h e hmem
      · rw [List.mem_singleton.mp hmem]
        exact hacc
  by_cases heq : e.account_id = acc
  · rw [if_pos heq] at hfe
    subst hfe
    exact hbase
  · rw [if_neg heq] at hfe
    subst hfe
    exact hbase

theorem registerCycle_nonhub (g : Graph)
    (acc : List (List String) × EngineState) (cyc : List String)
    (h : (∀ e ∈ acc.2.suspicious, isMerchantOrPayroll g e.account_id = false) ∧
         (∀ r ∈ acc.2.rings, r.pattern_type = "smurfing" →
            ∀ m ∈ r.member_accounts, isMerchantOrPayroll g m = false)) :
    (∀ e ∈ (registerCycle g acc cyc).2.suspicious,
        isMerchantOrPayroll g e.account_id = false) ∧
    (∀ r ∈ (registerCycle g acc cyc).2.rings, r.pattern_type = "smurfing" →
        ∀ m ∈ r.member_accounts, isMerchantOrPayroll g m = false) := by
  obtain ⟨seen, st⟩ := acc
  simp only [registerCycle]
  split
  · exact h
  · dsimp only at h ⊢
    refine foldl_preserves (fun st' : EngineState =>
        (∀ e ∈ st'.suspicious, isMerchantOrPayroll g e.account_id = false) ∧
        (∀ r ∈ st'.rings, r.pattern_type = "smurfing" →
           ∀ m ∈ r.member_accounts, isMerchantOrPayroll g m = false))
      _ cyc _ ?_ ?_
    · intro st' a _ hst'
      split
      · exact hst'
      · next hhub =>
        refine ⟨flagAccount_nonhub g st' a _ _ _ ?_ hst'.1,
          fun r hr => by rw [flagAccount_rings] at hr; exact hst'.2 r hr⟩
        exact Bool.of_not_eq_true hhub
    · refine ⟨h.1, ?_⟩
      intro r hr hpat
      rcases List.mem_append.mp hr with hmem | hmem
      · exact h.2 r hmem hpat
      · rw [List.mem_singleton.mp hmem] at hpat
        exact absurd hpat (by dsimp only; decide)

theorem detectCycles_nonhub (g : Graph) (st : EngineState)
    (h : (∀ e ∈ st.suspicious, isMerchantOrPayroll g e.account_id = false) ∧
         (∀ r ∈ st.rings, r.pattern_type = "smurfing" →
            ∀ m ∈ r.member_accounts, isMerchantOrPayroll g m = false)) :
    (∀ e ∈ (detectCycles g st).suspicious,
        isMerchantOrPayroll g e.account_id = false) ∧
    (∀ r ∈ (detectCycles g st).rings, r.pattern_type = "smurfing" →
        ∀ m ∈ r.member_accounts, isMerchantOrPayroll g m = false) := by
  unfold detectCycles
  exact foldl_preserves (fun p : List (List String) × EngineState =>
      (∀ e ∈ p.2.suspicious, isMerchantOrPayroll g e.account_id = false) ∧
      (∀ r ∈ p.2.rings, r.pattern_type = "smurfing" →
         ∀ m ∈ r.member_accounts, isMerchantOrPayroll g m = false))
    (registerCycle g) (dfsCycles g) ([], st)
    (fun p cyc _ hp => registerCycle_nonhub g p cyc hp) h

theorem flagMembers_nonhub (g : Graph) (members : List String) (t : ℚ)
    (firstPat : String) (rid : ℕ) (base' : ℚ) (st : EngineState)
    (hmem : ∀ m ∈ members, isMerchantOrPayroll g m = false)
    (h : (∀ e ∈ st.suspicious, isMerchantOrPayroll g e.account_id = false) ∧
         (∀ r ∈ st.rings, r.pattern_type = "smurfing" →
            ∀ m ∈ r.member_accounts, isMerchantOrPayroll g m = false)) :
    (∀ e ∈ (members.foldl (fun st' a =>
        (smurfPatterns t firstPat).foldl (fun st'' p =>
          flagAccount st'' a p rid base') st') st).suspicious,
        isMerchantOrPayroll g e.account_id = false) ∧
    (∀ r ∈ (members.foldl (fun st' a =>
        (smurfPatterns t firstPat).foldl (fun st'' p =>
          flagAccount st'' a p rid base') st') st).rings,
        r.pattern_type = "smurfing" →
          ∀ m ∈ r.member_accounts, isMerchantOrPayroll g m = false) := by
  refine foldl_preserves (fun st' : EngineState =>
      (∀ e ∈ st'.suspicious, isMerchantOrPayroll g e.account_id = false) ∧
      (∀ r ∈ st'.rings, r.pattern_type = "smurfing" →
         ∀ m ∈ r.member_accounts, isMerchantOrPayroll g m = false))
    _ members st ?_ h
  intro st' a ha hst'
  refine foldl_preserves (fun st'' : EngineState =>
      (∀ e ∈ st''.suspicious, isMerchantOrPayroll g e.account_id = false) ∧
      (∀ r ∈ st''.rings, r.pattern_type = "smurfing" →
         ∀ m ∈ r.member_accounts, isMerchantOrPayroll g m = false))
    _ (smurfPatterns t firstPat) st' ?_ hst'
  intro st'' p _ hst''
  exact ⟨flagAccount_nonhub g st'' a p rid base' (hmem a ha) hst''.1,
    fun r hr => by rw [flagAccount_rings] at hr; exact hst''.2 r hr⟩

theorem fanInStep_nonhub (g : Graph) (st : EngineState) (node : String)
    (h : (∀ e ∈ st.suspicious, isMerchantOrPayroll g e.account_id = false) ∧
         (∀ r ∈ st.rings, r.pattern_type = "smurfing" →
            ∀ m ∈ r.member_accounts, isMerchantOrPayroll g m = false)) :
    (∀ e ∈ (fanInStep g st node).suspicious,
        isMerchantOrPayroll g e.account_id = false) ∧
    (∀ r ∈ (fanInStep g st node).rings, r.pattern_type = "smurfing" →
        ∀ m ∈ r.member_accounts, isMerchantOrPayroll g m = false) := by
  unfold fanInStep
  dsimp only
  split
  · have hmem : ∀ m ∈ (node :: (g.ndata node).senders).filter
        (fun m => !(isMerchantOrPayroll g m)), isMerchantOrPayroll g m = false := by
      intro m hm
      have := (List.mem_filter.mp hm).2
      simpa using this
    split
    · refine flagMembers_nonhub g _ _ "fan_in" _ _ _ hmem ⟨h.1, ?_⟩
      intro r hr hpat
      rcases List.mem_append.mp hr with hmem' | hmem'
      · exact h.2 r hmem' hpat
      · rw [List.mem_singleton.mp hmem']
        exact fun m hm => hmem m hm
    · exact h
  · exact h

theorem fanOutStep_nonhub (g : Graph) (st : EngineState) (node : String)
    (h : (∀ e ∈ st.suspicious, isMerchantOrPayroll g e.account_id = false) ∧
         (∀ r ∈ st.rings, r.pattern_type = "smurfing" →
            ∀ m ∈ r.member_accounts, isMerchantOrPayroll g m = false)) :
    (∀ e ∈ (fanOutStep g st node).suspicious,
        isMerchantOrPayroll g e.account_id = false) ∧
    (∀ r ∈ (fanOutStep g st node).rings, r.pattern_type = "smurfing" →
        ∀ m ∈ r.member_accounts, isMerchantOrPayroll g m = false) := by
  unfold fanOutStep
  dsimp only
  split
  · have hmem : ∀ m ∈ (node :: (g.ndata node).receivers).filter
        (fun m => !(isMerchantOrPayroll g m)), isMerchantOrPayroll g m = false := by
      intro m hm
      have := (List.mem_filter.mp hm).2
      simpa using this
    split
    · refine flagMembers_nonhub g _ _ "fan_out" _ _ _ hmem ⟨h.1, ?_⟩
      intro r hr hpat
      rcases List.mem_append.mp hr with hmem' | hmem'
      · exact h.2 r hmem' hpat
      · rw [List.mem_singleton.mp hmem']
        exact fun m hm => hmem m hm
    · exact h
  · exact h

theorem detectSmurfing_nonhub (g : Graph) (st : EngineState)
    (h : (∀ e ∈ st.suspicious, isMerchantOrPayroll g e.account_id = false) ∧
         (∀ r ∈ st.rings, r.pattern_type = "smurfing" →
            ∀ m ∈ r.member_accounts, isMerchantOrPayroll g m = false)) :
    (∀ e ∈ (detectSmurfing g st).suspicious,
        isMerchantOrPayroll g e.account_id = false) ∧
    (∀ r ∈ (detectSmurfing g st).rings, r.pattern_type = "smurfing" →
        ∀ m ∈ r.member_accounts, isMerchantOrPayroll g m = false) := by
  unfold detectSmurfing
  refine foldl_preserves (fun st' : EngineState =>
      (∀ e ∈ st'.suspicious, isMerchantOrPayroll g e.account_id = false) ∧
      (∀ r ∈ st'.rings, r.pattern_type = "smurfing" →
         ∀ m ∈ r.member_accounts, isMerchantOrPayroll g m = false))
    _ g.nodes st ?_ h
  intro st' node _ hst'
  split
  · exact hst'
  · exact fanOutStep_nonhub g _ node (fanInStep_nonhub g st' node hst')

theorem registerChain_nonhub (g : Graph) (shellCands : List String)
    (st : EngineState) (newPath : List String)
    (h : (∀ e ∈ st.suspicious, isMerchantOrPayroll g e.account_id = false) ∧
         (∀ r ∈ st.rings, r.pattern_type = "smurfing" →
            ∀ m ∈ r.member_accounts, isMerchantOrPayroll g m = false)) :
    (∀ e ∈ (registerChain g shellCands st newPath).suspicious,
        isMerchantOrPayroll g e.account_id = false) ∧
    (∀ r ∈ (registerChain g shellCands st newPath).rings,
        r.pattern_type = "smurfing" →
          ∀ m ∈ r.member_accounts, isMerchantOrPayroll g m = false) := by
  unfold registerChain
  dsimp only
  refine foldl_preserves (fun st' : EngineState =>
      (∀ e ∈ st'.suspicious, isMerchantOrPayroll g e.account_id = false) ∧
      (∀ r ∈ st'.rings, r.pattern_type = "smurfing" →
         ∀ m ∈ r.member_accounts, isMerchantOrPayroll g m = false))
    _ newPath _ ?_ ?_
  · intro st' a _ hst'
    split
    · exact hst'
    · next hhub =>
      exact ⟨flagAccount_nonhub g st' a _ _ _ (Bool.of_not_eq_true hhub) hst'.1,
        fun r hr => by rw [flagAccount_rings] at hr; exact hst'.2 r hr⟩
  · refine ⟨h.1, ?_⟩
    intro r hr hpat
    rcases List.mem_append.mp hr with hmem | hmem
    · exact h.2 r hmem hpat
    · rw [List.mem_singleton.mp hmem] at hpat
      exact absurd hpat (by dsimp only; decide)

theorem shellSucc_nonhub (g : Graph) (shellCands : List String) (fr : SFrame)
    (acc : List SFrame × List (List String) × EngineState) (nxt : String)
    (h : (∀ e ∈ acc.2.2.suspicious, isMerchantOrPayroll g e.account_id = false) ∧
         (∀ r ∈ acc.2.2.rings, r.pattern_type = "smurfing" →
            ∀ m ∈ r.member_accounts, isMerchantOrPayroll g m = false)) :
    (∀ e ∈ (shellSucc g shellCands fr acc nxt).2.2.suspicious,
        isMerchantOrPayroll g e.account_id = false) ∧
    (∀ r ∈ (shellSucc g shellCands fr acc nxt).2.2.rings,
        r.pattern_type = "smurfing" →
          ∀ m ∈ r.member_accounts, isMerchantOrPayroll g m = false) := by
  obtain ⟨stk, visited, st⟩ := acc
  unfold shellSucc
  dsimp only at h ⊢
  split
  · exact h
  · dsimp only
    split
    · exact registerChain_nonhub g shellCands st _ h
    · exact h

theorem shellGo_nonhub (g : Graph) (shellCands : List String) (fuel : ℕ)
    (stack : List SFrame) (visited : List (List String)) (st : EngineState)
    (h : (∀ e ∈ st.suspicious, isMerchantOrPayroll g e.account_id = false) ∧
         (∀ r ∈ st.rings, r.pattern_type = "smurfing" →
            ∀ m ∈ r.member_accounts, isMerchantOrPayroll g m = false)) :
    (∀ e ∈ (shellGo g shellCands fuel stack visited st).2.suspicious,
        isMerchantOrPayroll g e.account_id = false) ∧
    (∀ r ∈ (shellGo g shellCands fuel stack visited st).2.rings,
        r.pattern_type = "smurfing" →
          ∀ m ∈ r.member_accounts, isMerchantOrPayroll g m = false) := by
  induction fuel generalizing stack visited st with
  | zero => exact h
  | succ fuel ih =>
    match stack with
    | [] => exact h
    | fr :: rest =>
      rw [shellGo]
      split
      · exact ih rest visited st h
      · exact ih _ _ _ (foldl_preserves
          (fun acc : List SFrame × List (List String) × EngineState =>
            (∀ e ∈ acc.2.2.suspicious, isMerchantOrPayroll g e.account_id = false) ∧
            (∀ r ∈ acc.2.2.rings, r.pattern_type = "smurfing" →
               ∀ m ∈ r.member_accounts, isMerchantOrPayroll g m = false))
          (shellSucc g shellCands fr) (successors g fr.curr) (rest, visited, st)
          (fun acc nxt _ hacc => shellSucc_nonhub g shellCands fr acc nxt hacc) h)

theorem detectShellNetworks_nonhub (g : Graph) (st : EngineState)
    (h : (∀ e ∈ st.suspicious, isMerchantOrPayroll g e.account_id = false) ∧
         (∀ r ∈ st.rings, r.pattern_type = "smurfing" →
            ∀ m ∈ r.member_accounts, isMerchantOrPayroll g m = false)) :
    (∀ e ∈ (detectShellNetworks g st).suspicious,
        isMerchantOrPayroll g e.account_id = false) ∧
    (∀ r ∈ (detectShellNetworks g st).rings, r.pattern_type = "smurfing" →
        ∀ m ∈ r.member_accounts, isMerchantOrPayroll g m = false) := by
  unfold detectShellNetworks
  dsimp only
  split
  · exact h
  · refine foldl_preserves (fun acc : List (List String) × EngineState =>
      (∀ e ∈ acc.2.suspicious, isMerchantOrPayroll g e.account_id = false) ∧
      (∀ r ∈ acc.2.rings, r.pattern_type = "smurfing" →
         ∀ m ∈ r.member_accounts, isMerchantOrPayroll g m = false))
      (fun acc start => if (shellCandidates g).contains start then acc
        else shellGo g (shellCandidates g) ((g.nodes.length + 2) ^ 8)
          [⟨start, [start], 0⟩] acc.1 acc.2)
      g.nodes ([], st) ?_ h
    intro acc start _ hacc
    dsimp only
    split
    · exact hacc
    · exact shellGo_nonhub g (shellCandidates g) _ _ _ _ hacc

theorem detectHighVelocity_nonhub (g : Graph) (st : EngineState)
    (h : (∀ e ∈ st.suspicious, isMerchantOrPayroll g e.account_id = false) ∧
         (∀ r ∈ st.rings, r.pattern_type = "smurfing" →
            ∀ m ∈ r.member_accounts, isMerchantOrPayroll g m = false)) :
    (∀ e ∈ (detectHighVelocity g st).suspicious,
        isMerchantOrPayroll g e.account_id = false) ∧
    (∀ r ∈ (detectHighVelocity g st).rings, r.pattern_type = "smurfing" →
        ∀ m ∈ r.member_accounts, isMerchantOrPayroll g m = false) := by
  unfold detectHighVelocity
  refine foldl_preserves (fun st' : EngineState =>
      (∀ e ∈ st'.suspicious, isMerchantOrPayroll g e.account_id = false) ∧
      (∀ r ∈ st'.rings, r.pattern_type = "smurfing" →
         ∀ m ∈ r.member_accounts, isMerchantOrPayroll g m = false))
    _ g.nodes st ?_ h
  intro st' node _ hst'
  have hupd : ∀ e' ∈ st'.suspicious.map (fun e =>
      if e.account_id = node then
        { e with detected_patterns := e.detected_patterns ++ ["high_velocity"],
                 suspicion_score := min 100 (e.suspicion_score + 15) }
      else e), isMerchantOrPayroll g e'.account_id = false := by
    intro e' he'
    obtain ⟨e, he, hfe⟩ := List.mem_map.mp he'
    by_cases hacc : e.account_id = node
    · rw [if_pos hacc] at hfe
      subst hfe
      exact hst'.1 e he
    · rw [if_neg hacc] at hfe
      subst hfe
      exact hst'.1 e he
  split
  · exact hst'
  · dsimp only
    split
    · exact hst'
    · split <;> split <;>
        first
          | exact hst'
          | (split <;> first | exact ⟨hupd, hst'.2⟩ | exact hst')

/-- C2 amended: on every input, every account in the final suspicious list
is a non-hub node of the transaction graph, and every ring of pattern
smurfing in the final output has only non-hub member accounts. Hubs can
still appear inside cycle and layering ring member lists, which is what
the counterexample exhibits. -/
theorem hub_never_flagged (records : List Record) :
    (∀ e ∈ (runEngine records).suspicious_accounts,
        isMerchantOrPayroll (buildGraph records) e.account_id = false) ∧
    (∀ r ∈ (runEngine records).fraud_rings, r.pattern_type = "smurfing" →
        ∀ m ∈ r.member_accounts,
          isMerchantOrPayroll (buildGraph records) m = false) := by
  have h4 := detectHighVelocity_nonhub (buildGraph records) _
    (detectShellNetworks_nonhub (buildGraph records) _
      (detectSmurfing_nonhub (buildGraph records) _
        (detectCycles_nonhub (buildGraph records) ⟨[], [], 0⟩
          ⟨fun e he => absurd he (List.not_mem_nil e),
           fun r hr => absurd hr (List.not_mem_nil r)⟩)))
  constructor
  · intro e' he'
    obtain ⟨e₁, he₁, hfe⟩ := List.mem_map.mp he'
    have he₂ := sortDesc_mem he₁
    have he₃ := List.mem_of_mem_filter he₂
    obtain ⟨e₀, he₀, hfe0⟩ := List.mem_map.mp he₃
    have hacc : e'.account_id = e₀.account_id := by
      rw [← hfe, ← hfe0]
      dsimp only
      rw [reassignRing_account]
    rw [hacc]
    exact h4.1 e₀ he₀
  · intro r' hr' hpat m hm
    obtain ⟨r₁, hr₁, hfr⟩ := List.mem_map.mp hr'
    obtain ⟨r₀, hr₀, -, hpat', -, -, hsub⟩ := reconcileRings_from _ [] r₁ hr₁
    have hpat₁ : r₁.pattern_type = r₀.pattern_type := hpat'
    have hpat₀ : r₀.pattern_type = "smurfing" := by
      rw [← hpat₁, ← hpat]
      rw [← hfr]
    have hm₁ : m ∈ r₁.member_accounts := by
      rw [← hfr] at hm
      exact hm
    exact h4.2 r₀ hr₀ hpat₀ m (hsub m hm₁)

/-- C2 amended witness: on the burst input the single smurfing ring exists
and its members, in particular the aggregator H, are all non-hub
accounts. -/
theorem hub_never_flagged_witness :
    isMerchantOrPayroll (buildGraph burstInput) "H" = false :=
  (hub_never_flagged burstInput).2
    ⟨1, ["H", "S10", "S09", "S08", "S07", "S06", "S05", "S04", "S03", "S02", "S01"],
     "smurfing", 56⟩
    (by with_unfolding_all decide) rfl "H" (by decide)

/-
  Size bounds for cycle rings, towards the amended C7. The DFS invariant:
  every stack frame carries a path of length depth+1 with depth at most 4,
  so every recorded closure has length between 3 and 5.
-/

theorem canonicalizeCycle_length (cyc : List String) :
    (canonicalizeCycle cyc).length = cyc.length := by
  unfold canonicalizeCycle
  rw [List.length_append, List.length_drop, List.length_take]
  have h : cyc.findIdx (fun x =>
      x == cyc.foldl (fun a b => if b < a then b else a) (cyc.headD "")) ≤ cyc.length :=
    List.findIdx_le_length _
  omega

theorem dfsStep_sizes (start : String) (fr : CFrame)
    (hfr : fr.path.length = fr.depth + 1 ∧ fr.depth ≤ 4)
    (acc : List CFrame × List String × List (List String)) (nbr : String)
    (hacc : (∀ f ∈ acc.1, f.path.length = f.depth + 1 ∧ f.depth ≤ 4) ∧
            (∀ c ∈ acc.2.2, 3 ≤ c.length ∧ c.length ≤ 5)) :
    (∀ f ∈ (dfsStep start fr acc nbr).1,
        f.path.length = f.depth + 1 ∧ f.depth ≤ 4) ∧
    (∀ c ∈ (dfsStep start fr acc nbr).2.2, 3 ≤ c.length ∧ c.length ≤ 5) := by
  obtain ⟨stk, vis, cycs⟩ := acc
  unfold dfsStep
  dsimp only at hacc ⊢
  split
  · next hcond =>
    refine ⟨hacc.1, ?_⟩
    intro c hc
    rcases List.mem_append.mp hc with hmem | hmem
    · exact hacc.2 c hmem
    · rw [List.mem_singleton.mp hmem, canonicalizeCycle_length]
      exact ⟨hcond.2, by omega⟩
  · split
    · next hcond =>
      refine ⟨?_, hacc.2⟩
      intro f hf
      rcases List.mem_cons.mp hf with rfl | hmem
      · constructor
        · show (fr.path ++ [nbr]).length = fr.depth + 1 + 1
          rw [List.length_append, hfr.1]
          rfl
        · show fr.depth + 1 ≤ 4
          omega
      · exact hacc.1 f hmem
    · exact hacc

theorem dfsCyclesGo_sizes (g : Graph) (start : String) (fuel : ℕ)
    (stack : List CFrame) (vis : List String) (cycs : List (List String))
    (hstack : ∀ f ∈ stack, f.path.length = f.depth + 1 ∧ f.depth ≤ 4)
    (hcycs : ∀ c ∈ cycs, 3 ≤ c.length ∧ c.length ≤ 5) :
    ∀ c ∈ dfsCyclesGo g start fuel stack vis cycs,
      3 ≤ c.length ∧ c.length ≤ 5 := by
  induction fuel generalizing stack vis cycs with
  | zero =>
    cases stack <;> exact hcycs
  | succ fuel ih =>
    match stack with
    | [] => exact hcycs
    | fr :: rest =>
      rw [dfsCyclesGo]
      have hrest : ∀ f ∈ rest, f.path.length = f.depth + 1 ∧ f.depth ≤ 4 :=
        fun f hf => hstack f (List.mem_cons_of_mem _ hf)
      split
      · exact ih rest vis cycs hrest hcycs
      · have hfold := foldl_preserves
          (fun acc : List CFrame × List String × List (List String) =>
            (∀ f ∈ acc.1, f.path.length = f.depth + 1 ∧ f.depth ≤ 4) ∧
            (∀ c ∈ acc.2.2, 3 ≤ c.length ∧ c.length ≤ 5))
          (dfsStep start fr) (successors g fr.curr) (rest, vis, cycs)
          (fun acc nbr _ hacc =>
            dfsStep_sizes start fr (hstack fr (List.mem_cons_self _ _)) acc nbr hacc)
          ⟨hrest, hcycs⟩
        exact ih _ _ _ hfold.1 hfold.2

theorem dfsCycles_sizes (g : Graph) :
    ∀ c ∈ dfsCycles g, 3 ≤ c.length ∧ c.length ≤ 5 := by
  unfold dfsCycles
  refine foldl_preserves (fun cycs : List (List String) =>
      ∀ c ∈ cycs, 3 ≤ c.length ∧ c.length ≤ 5)
    _ g.nodes [] ?_ (fun c hc => absurd hc (List.not_mem_nil c))
  intro cycs start _ hcycs
  refine dfsCyclesGo_sizes g start _ _ _ _ ?_ hcycs
  intro f hf
  rw [List.mem_singleton.mp hf]
  exact ⟨rfl, by show (0:ℕ) ≤ 4; omega⟩

theorem registerCycle_sized (g : Graph)
    (acc : List (List String) × EngineState) (cyc : List String)
    (hcyc : 3 ≤ cyc.length ∧ cyc.length ≤ 5)
    (h : ∀ r ∈ acc.2.rings, r.pattern_type = "cycle" →
        3 ≤ r.member_accounts.length ∧ r.member_accounts.length ≤ 5) :
    ∀ r ∈ (registerCycle g acc cyc).2.rings, r.pattern_type = "cycle" →
      3 ≤ r.member_accounts.length ∧ r.member_accounts.length ≤ 5 := by
  obtain ⟨seen, st⟩ := acc
  simp only [registerCycle]
  split
  · exact h
  · dsimp only at h ⊢
    refine foldl_preserves (fun st' : EngineState =>
        ∀ r ∈ st'.rings, r.pattern_type = "cycle" →
          3 ≤ r.member_accounts.length ∧ r.member_accounts.length ≤ 5)
      _ cyc _ ?_ ?_
    · intro st' a _ hst'
      split
      · exact hst'
      · intro r hr
        rw [flagAccount_rings] at hr
        exact hst' r hr
    · intro r hr _
      rcases List.mem_append.mp hr with hmem | hmem
      · exact h r hmem (by assumption)
      · rw [List.mem_singleton.mp hmem]
        exact hcyc

theorem detectCycles_sized (g : Graph) (st : EngineState)
    (h : ∀ r ∈ st.rings, r.pattern_type = "cycle" →
        3 ≤ r.member_accounts.length ∧ r.member_accounts.length ≤ 5) :
    ∀ r ∈ (detectCycles g st).rings, r.pattern_type = "cycle" →
      3 ≤ r.member_accounts.length ∧ r.member_accounts.length ≤ 5 := by
  unfold detectCycles
  have := foldl_preserves (fun p : List (List String) × EngineState =>
      ∀ r ∈ p.2.rings, r.pattern_type = "cycle" →
        3 ≤ r.member_accounts.length ∧ r.member_accounts.length ≤ 5)
    (registerCycle g) (dfsCycles g) ([], st)
    (fun p cyc hmem hp => registerCycle_sized g p cyc (dfsCycles_sizes g cyc hmem) hp) h
  exact this

theorem flagMembers_sized (members : List String) (t : ℚ) (firstPat : String)
    (rid : ℕ) (base' : ℚ) (st : EngineState)
    (h : ∀ r ∈ st.rings, r.pattern_type = "cycle" →
        3 ≤ r.member_accounts.length ∧ r.member_accounts.length ≤ 5) :
    ∀ r ∈ (members.foldl (fun st' a =>
        (smurfPatterns t firstPat).foldl (fun st'' p =>
          flagAccount st'' a p rid base') st') st).rings,
      r.pattern_type = "cycle" →
        3 ≤ r.member_accounts.length ∧ r.member_accounts.length ≤ 5 := by
  refine foldl_preserves (fun st' : EngineState =>
      ∀ r ∈ st'.rings, r.pattern_type = "cycle" →
        3 ≤ r.member_accounts.length ∧ r.member_accounts.length ≤ 5)
    _ members st ?_ h
  intro st' a _ hst'
  refine foldl_preserves (fun st'' : EngineState =>
      ∀ r ∈ st''.rings, r.pattern_type = "cycle" →
        3 ≤ r.member_accounts.length ∧ r.member_accounts.length ≤ 5)
    _ (smurfPatterns t firstPat) st' ?_ hst'
  intro st'' p _ hst'' r hr
  rw [flagAccount_rings] at hr
  exact hst'' r hr

theorem fanInStep_sized (g : Graph) (st : EngineState) (node : String)
    (h : ∀ r ∈ st.rings, r.pattern_type = "cycle" →
        3 ≤ r.member_accounts.length ∧ r.member_accounts.length ≤ 5) :
    ∀ r ∈ (fanInStep g st node).rings, r.pattern_type = "cycle" →
      3 ≤ r.member_accounts.length ∧ r.member_accounts.length ≤ 5 := by
  unfold fanInStep
  dsimp only
  split
  · split
    · refine flagMembers_sized _ _ "fan_in" _ _ _ ?_
      intro r hr hpat
      rcases List.mem_append.mp hr with hmem | hmem
      · exact h r hmem hpat
      · rw [List.mem_singleton.mp hmem] at hpat
        exact absurd hpat (by dsimp only; decide)
    · exact h
  · exact h

theorem fanOutStep_sized (g : Graph) (st : EngineState) (node : String)
    (h : ∀ r ∈ st.rings, r.pattern_type = "cycle" →
        3 ≤ r.member_accounts.length ∧ r.member_accounts.length ≤ 5) :
    ∀ r ∈ (fanOutStep g st node).rings, r.pattern_type = "cycle" →
      3 ≤ r.member_accounts.length ∧ r.member_accounts.length ≤ 5 := by
  unfold fanOutStep
  dsimp only
  split
  · split
    · refine flagMembers_sized _ _ "fan_out" _ _ _ ?_
      intro r hr hpat
      rcases List.mem_append.mp hr with hmem | hmem
      · exact h r hmem hpat
      · rw [List.mem_singleton.mp hmem] at hpat
        exact absurd hpat (by dsimp only; decide)
    · exact h
  · exact h

theorem detectSmurfing_sized (g : Graph) (st : EngineState)
    (h : ∀ r ∈ st.rings, r.pattern_type = "cycle" →
        3 ≤ r.member_accounts.length ∧ r.member_accounts.length ≤ 5) :
    ∀ r ∈ (detectSmurfing g st).rings, r.pattern_type = "cycle" →
      3 ≤ r.member_accounts.length ∧ r.member_accounts.length ≤ 5 := by
  unfold detectSmurfing
  refine foldl_preserves (fun st' : EngineState =>
      ∀ r ∈ st'.rings, r.pattern_type = "cycle" →
        3 ≤ r.member_accounts.length ∧ r.member_accounts.length ≤ 5)
    _ g.nodes st ?_ h
  intro st' node _ hst'
  split
  · exact hst'
  · exact fanOutStep_sized g _ node (fanInStep_sized g st' node hst')

theorem registerChain_sized (g : Graph) (shellCands : List String)
    (st : EngineState) (newPath : List String)
    (h : ∀ r ∈ st.rings, r.pattern_type = "cycle" →
        3 ≤ r.member_accounts.length ∧ r.member_accounts.length ≤ 5) :
    ∀ r ∈ (registerChain g shellCands st newPath).rings,
      r.pattern_type = "cycle" →
        3 ≤ r.member_accounts.length ∧ r.member_accounts.length ≤ 5 := by
  unfold registerChain
  dsimp only
  refine foldl_preserves (fun st' : EngineState =>
      ∀ r ∈ st'.rings, r.pattern_type = "cycle" →
        3 ≤ r.member_accounts.length ∧ r.member_accounts.length ≤ 5)
    _ newPath _ ?_ ?_
  · intro st' a _ hst'
    split
    · exact hst'
    · intro r hr
      rw [flagAccount_rings] at hr
      exact hst' r hr
  · intro r hr hpat
    rcases List.mem_append.mp hr with hmem | hmem
    · exact h r hmem hpat
    · rw [List.mem_singleton.mp hmem] at hpat
      exact absurd hpat (by dsimp only; decide)

theorem shellSucc_sized (g : Graph) (shellCands : List String) (fr : SFrame)
    (acc : List SFrame × List (List String) × EngineState) (nxt : String)
    (h : ∀ r ∈ acc.2.2.rings, r.pattern_type = "cycle" →
        3 ≤ r.member_accounts.length ∧ r.member_accounts.length ≤ 5) :
    ∀ r ∈ (shellSucc g shellCands fr acc nxt).2.2.rings,
      r.pattern_type = "cycle" →
        3 ≤ r.member_accounts.length ∧ r.member_accounts.length ≤ 5 := by
  obtain ⟨stk, visited, st⟩ := acc
  unfold shellSucc
  dsimp only at h ⊢
  split
  · exact h
  · dsimp only
    split
    · exact registerChain_sized g shellCands st _ h
    · exact h

theorem shellGo_sized (g : Graph) (shellCands : List String) (fuel : ℕ)
    (stack : List SFrame) (visited : List (List String)) (st : EngineState)
    (h : ∀ r ∈ st.rings, r.pattern_type = "cycle" →
        3 ≤ r.member_accounts.length ∧ r.member_accounts.length ≤ 5) :
    ∀ r ∈ (shellGo g shellCands fuel stack visited st).2.rings,
      r.pattern_type = "cycle" →
        3 ≤ r.member_accounts.length ∧ r.member_accounts.length ≤ 5 := by
  induction fuel generalizing stack visited st with
  | zero => exact h
  | succ fuel ih =>
    match stack with
    | [] => exact h
    | fr :: rest =>
      rw [shellGo]
      split
      · exact ih rest visited st h
      · exact ih _ _ _ (foldl_preserves
          (fun acc : List SFrame × List (List String) × EngineState =>
            ∀ r ∈ acc.2.2.rings, r.pattern_type = "cycle" →
              3 ≤ r.member_accounts.length ∧ r.member_accounts.length ≤ 5)
          (shellSucc g shellCands fr) (successors g fr.curr) (rest, visited, st)
          (fun acc nxt _ hacc => shellSucc_sized g shellCands fr acc nxt hacc) h)

theorem detectShellNetworks_sized (g : Graph) (st : EngineState)
    (h : ∀ r ∈ st.rings, r.pattern_type = "cycle" →
        3 ≤ r.member_accounts.length ∧ r.member_accounts.length ≤ 5) :
    ∀ r ∈ (detectShellNetworks g st).rings, r.pattern_type = "cycle" →
      3 ≤ r.member_accounts.length ∧ r.member_accounts.length ≤ 5 := by
  unfold detectShellNetworks
  dsimp only
  split
  · exact h
  · refine foldl_preserves (fun acc : List (List String) × EngineState =>
      ∀ r ∈ acc.2.rings, r.pattern_type = "cycle" →
        3 ≤ r.member_accounts.length ∧ r.member_accounts.length ≤ 5)
      (fun acc start => if (shellCandidates g).contains start then acc
        else shellGo g (shellCandidates g) ((g.nodes.length + 2) ^ 8)
          [⟨start, [start], 0⟩] acc.1 acc.2)
      g.nodes ([], st) ?_ h
    intro acc start _ hacc
    dsimp only
    split
    · exact hacc
    · exact shellGo_sized g (shellCandidates g) _ _ _ _ hacc

theorem detectHighVelocity_sized (g : Graph) (st : EngineState)
    (h : ∀ r ∈ st.rings, r.pattern_type = "cycle" →
        3 ≤ r.member_accounts.length ∧ r.member_accounts.length ≤ 5) :
    ∀ r ∈ (detectHighVelocity g st).rings, r.pattern_type = "cycle" →
      3 ≤ r.member_accounts.length ∧ r.member_accounts.length ≤ 5 := by
  unfold detectHighVelocity
  refine foldl_preserves (fun st' : EngineState =>
      ∀ r ∈ st'.rings, r.pattern_type = "cycle" →
        3 ≤ r.member_accounts.length ∧ r.member_accounts.length ≤ 5)
    _ g.nodes st ?_ h
  intro st' node _ hst'
  split
  · exact hst'
  · dsimp only
    split
    · exact hst'
    · split <;> split <;>
        first
          | exact hst'
          | (split <;> exact hst')

/-- C7 amended: on every input, every ring of pattern cycle in the final
output has between 2 and 5 member accounts. Registration always produces
cycle rings of 3 to 5 members, but reconciliation may strip members
already claimed by earlier rings, keeping the ring as long as 2 survive,
which is what the counterexample exhibits. -/
theorem cycle_ring_size_bounds (records : List Record) :
    ∀ r ∈ (runEngine records).fraud_rings, r.pattern_type = "cycle" →
      2 ≤ r.member_accounts.length ∧ r.member_accounts.length ≤ 5 := by
  have h4 := detectHighVelocity_sized (buildGraph records) _
    (detectShellNetworks_sized (buildGraph records) _
      (detectSmurfing_sized (buildGraph records) _
        (detectCycles_sized (buildGraph records) ⟨[], [], 0⟩
          (fun r hr _ => absurd hr (List.not_mem_nil r)))))
  intro r' hr' hpat
  obtain ⟨r₁, hr₁, hfr⟩ := List.mem_map.mp hr'
  obtain ⟨hmin2, -, -⟩ := reconcileRings_inv
    (detectHighVelocity (buildGraph records)
      (detectShellNetworks (buildGraph records)
        (detectSmurfing (buildGraph records)
          (detectCycles (buildGraph records) ⟨[], [], 0⟩)))).rings []
  obtain ⟨r₀, hr₀, -, hpat', -, hlen, -⟩ := reconcileRings_from _ [] r₁ hr₁
  have hpat₁ : r₁.pattern_type = "cycle" := by
    have hlit : ({ ring_id := r₁.ring_id,
                   member_accounts := r₁.member_accounts,
                   pattern_type := r₁.pattern_type,
                   risk_score := round1 r₁.risk_score } : Ring).pattern_type
        = "cycle" := by
      rw [hfr]
      exact hpat
    exact hlit
  have hpat₀ : r₀.pattern_type = "cycle" := by
    rw [← hpat']
    exact hpat₁
  have hupper := (h4 r₀ hr₀ hpat₀).2
  have hlower := hmin2 r₁ hr₁
  constructor
  · rw [← hfr]
    exact hlower
  · rw [← hfr]
    exact le_trans hlen hupper

/-- C7 amended witness: the bounds instantiated at the ring produced by
the three-cycle scenario. -/
theorem cycle_ring_size_bounds_witness :
    2 ≤ (⟨1, ["A", "B", "C"], "cycle", (80 : ℚ)⟩ : Ring).member_accounts.length ∧
    (⟨1, ["A", "B", "C"], "cycle", (80 : ℚ)⟩ : Ring).member_accounts.length ≤ 5 :=
  cycle_ring_size_bounds cycle3Input ⟨1, ["A", "B", "C"], "cycle", 80⟩
    (by with_unfolding_all decide) rfl

end Forensics
